import Mathlib

/-!
A verification development for the `parster` JSON parser/serializer
(`src/main.rs`).  The Rust source is shallowly embedded: the input text is a
`List Char`, the cursor (`struct JSON`) is a record of the current character
and the remaining character iterator, and each Rust method becomes a Lean
function of the same name.  Rust panics (`panic!`, failed `assert!`,
`unwrap()` on `None`/`Err`) are modelled as a `panic` result constructor; the
recursive descent is made total with a fuel parameter whose sufficiency is
proved below (`parse_any_fuel_sufficient`), so the fueled functions coincide
with the unbounded Rust recursion.

The only part of the source that is not embedded concretely is the `f64`
number payload: `JSONValue::Number(f64)`, Rust's `f64` `Display`
(`n.to_string()`), and `str::parse::<f64>()`.  These are abstracted as a
`FloatMod` structure (a payload type together with its formatting and parsing
functions); theorems that depend on `f64` behaviour take the relevant facts
about a number's formatted text as hypotheses, and concrete evaluations
instantiate the model with integers, on which the formatting/parsing
functions agree with Rust's `f64` ones for the lexemes involved.

The `pos : usize` field of the Rust cursor is incremented but never read (no
message or return value mentions it), so it is omitted from the state.
-/

/-- `'\0'`, the end-of-input sentinel produced by `next_tok`. -/
def nulChar : Char := '\x00'

/-- Rust's `char::is_ascii_whitespace`: space, horizontal tab, newline,
form feed, carriage return. -/
def isAsciiWs (c : Char) : Bool :=
  c == ' ' || c == '\t' || c == '\n' || c == '\x0c' || c == '\r'

/-- Rust's `char::is_ascii_digit`. -/
def isAsciiDigit (c : Char) : Bool :=
  '0' ≤ c && c ≤ '9'

/-- Abstraction of the `f64` payload of `JSONValue::Number`:
`fmt` models Rust's `Display` for `f64` (used by `repr` via `n.to_string()`),
`fromStr` models `str::parse::<f64>()` (`None` standing for `Err`). -/
structure FloatMod where
  Num : Type
  fmt : Num → List Char
  fromStr : List Char → Option Num

/-- `enum JSONValue` from the source.  `LinkedList<JSONValue>` becomes a
`List`; `BTreeMap<String, JSONValue>` becomes an association list that is
kept sorted by key (`btInsert` below), which is the representation invariant
of every Rust `BTreeMap` value. -/
inductive JSONValue (ν : Type) where
  | Number : ν → JSONValue ν
  | String : List Char → JSONValue ν
  | Bool : Bool → JSONValue ν
  | Array : List (JSONValue ν) → JSONValue ν
  | Object : List (List Char × JSONValue ν) → JSONValue ν
  | Null

/-- Rust `char` order (by code point). -/
def charLtb (a b : Char) : Bool := a.toNat < b.toNat

/-- Rust `String` order: lexicographic by code point (byte order on UTF-8
coincides with code-point order). -/
def strLtb : List Char → List Char → Bool
  | [], [] => false
  | [], _ :: _ => true
  | _ :: _, [] => false
  | a :: as_, b :: bs =>
    if charLtb a b then true
    else if charLtb b a then false
    else strLtb as_ bs

/-- `BTreeMap::insert` on the sorted-association-list representation: the
value at an existing key is replaced, otherwise the pair is placed at its
sorted position. -/
def btInsert {ν : Type} (k : List Char) (v : JSONValue ν) :
    List (List Char × JSONValue ν) → List (List Char × JSONValue ν)
  | [] => [(k, v)]
  | (k', v') :: rest =>
    if strLtb k k' then (k, v) :: (k', v') :: rest
    else if k = k' then (k, v) :: rest
    else (k', v') :: btInsert k v rest

/-- `(0..=indent).map(|_| "  ").collect::<String>()`: `indent + 1` copies of
two spaces. -/
def indstr (indent : Nat) : List Char :=
  (List.replicate (indent + 1) [' ', ' ']).flatten

/-- `(0..indent).map(|_| "  ").collect::<String>()`: `indent` copies of two
spaces. -/
def indstrend (indent : Nat) : List Char :=
  (List.replicate indent [' ', ' ']).flatten

mutual
/-- `JSONValue::repr` from the source: two-space indented rendering.  The
`map`/`join(",\n")` over entries is expressed by the recursive helpers
`reprObjItems`/`reprArrItems`, which produce the joined text directly. -/
def JSONValue.repr (F : FloatMod) : JSONValue F.Num → Nat → List Char
  | .Null, _ => "null".data
  | .String s, _ => '"' :: (s ++ ['"'])
  | .Object m, indent =>
    match m with
    | [] => ['\x7b', '\x7d']
    | e :: rest =>
      '\x7b' :: '\n' :: (reprObjItems F (e :: rest) indent ++
        '\n' :: (indstrend indent ++ ['\x7d']))
  | .Array arr, indent =>
    match arr with
    | [] => ['[', ']']
    | x :: rest =>
      '[' :: '\n' :: (reprArrItems F (x :: rest) indent ++
        '\n' :: (indstrend indent ++ [']']))
  | .Number n, _ => F.fmt n
  | .Bool b, _ => if b then "true".data else "false".data

/-- The joined object entries: `indstr ++ "key": value`, joined by `",\n"`. -/
def reprObjItems (F : FloatMod) :
    List (List Char × JSONValue F.Num) → Nat → List Char
  | [], _ => []
  | [(k, v)], indent =>
    indstr indent ++ '"' :: (k ++ '"' :: ':' :: ' ' ::
      JSONValue.repr F v (indent + 1))
  | (k, v) :: e :: rest, indent =>
    (indstr indent ++ '"' :: (k ++ '"' :: ':' :: ' ' ::
      JSONValue.repr F v (indent + 1))) ++
      ',' :: '\n' :: reprObjItems F (e :: rest) indent

/-- The joined array entries: `indstr ++ value`, joined by `",\n"`. -/
def reprArrItems (F : FloatMod) : List (JSONValue F.Num) → Nat → List Char
  | [], _ => []
  | [x], indent => indstr indent ++ JSONValue.repr F x (indent + 1)
  | x :: y :: rest, indent =>
    (indstr indent ++ JSONValue.repr F x (indent + 1)) ++
      ',' :: '\n' :: reprArrItems F (y :: rest) indent
end

/-- The `fmt::Display` for `JSONValue`: `self.repr(0)`. -/
def render (F : FloatMod) (v : JSONValue F.Num) : List Char :=
  JSONValue.repr F v 0

/-- `struct JSON`: the cursor.  `cur_tok` is the current character, `iter`
the characters not yet consumed.  (The dead `pos` counter is omitted.) -/
structure JSON where
  cur_tok : Char
  iter : List Char
  deriving DecidableEq

/-- The character/remainder computation of `JSON::next_tok`: take the next
character (`'\0'` when exhausted), skipping any ASCII whitespace. -/
def nextTokChars : List Char → Char × List Char
  | [] => (nulChar, [])
  | c :: cs => if isAsciiWs c then nextTokChars cs else (c, cs)

/-- `JSON::next_tok` as a state transformer (the Rust method also returns
the new `cur_tok`, which equals `(next_tok s).cur_tok` here). -/
def JSON.next_tok (s : JSON) : JSON :=
  ⟨(nextTokChars s.iter).1, (nextTokChars s.iter).2⟩

/-- `JSON::expect`.  In the source the mismatch arm only builds a message
with `format!` and discards it — no panic, no early return — so `expect`
unconditionally behaves like `next_tok`, whatever `ch` and `cur_tok` are. -/
def JSON.expect (_ch : Char) (s : JSON) : JSON :=
  s.next_tok

/-- Outcome of a parsing step: a value, a Rust panic (process abort,
carrying the panic message), or fuel exhaustion of the embedding (proved
unreachable for sufficient fuel in `parse_any_fuel_sufficient`). -/
inductive PResult (α : Type) where
  | ok : α → PResult α
  | panic : String → PResult α
  | fuelOut

/-- `JSON::parse_string`: `take_while(|&c| c != '"')` collects the iterator
characters before the first `'"'` and consumes that quote, then `next_tok`
runs.  The current character is never inspected. -/
def JSON.parse_string (s : JSON) : List Char × JSON :=
  let content := s.iter.takeWhile (fun c => c != '"')
  let rest := (s.iter.dropWhile (fun c => c != '"')).drop 1
  (content, JSON.next_tok ⟨s.cur_tok, rest⟩)

/-- `JSON::parse_literal` for one keyword: `biter.take(n)` consumes the
next `tail.length` characters, which the `assert!` compares with `tail`. -/
def literalStep {α : Type} (tail : List Char) (res : α) (s : JSON) :
    PResult (α × JSON) :=
  if s.iter.take tail.length = tail then
    .ok (res, JSON.next_tok ⟨s.cur_tok, s.iter.drop tail.length⟩)
  else
    .panic "assertion failed"

/-- `JSON::parse_literal`: matches the tail of `true`/`false`/`null` after
the already-current first character (`TRUE = "rue"`, etc.). -/
def JSON.parse_literal (F : FloatMod) (s : JSON) :
    PResult (JSONValue F.Num × JSON) :=
  if s.cur_tok = 't' then literalStep "rue".data (JSONValue.Bool true) s
  else if s.cur_tok = 'f' then literalStep "alse".data (JSONValue.Bool false) s
  else if s.cur_tok = 'n' then literalStep "ull".data JSONValue.Null s
  else .panic "Unexpected literal."

/-- The accumulation loop of `JSON::parse_number`: keep calling `next_tok`
and pushing the returned character while it is an ASCII digit or `'.'`.
The whitespace skip performed inside `next_tok` is inlined as the first
branch (so the recursion is structural on the remaining input); the
equivalence with `nextTokChars` steps is `numAcc_eq_nextTok` below. -/
def numAcc (acc : List Char) : List Char → List Char × JSON
  | [] => (acc, ⟨nulChar, []⟩)
  | c :: cs =>
    if isAsciiWs c then numAcc acc cs
    else if isAsciiDigit c || c = '.' then numAcc (acc ++ [c]) cs
    else (acc, ⟨c, cs⟩)


/-- `JSON::parse_number`: accumulate starting from `cur_tok`, then
`s.parse::<f64>().unwrap()` — a lexeme the float parser rejects panics. -/
def JSON.parse_number (F : FloatMod) (s : JSON) :
    PResult (JSONValue F.Num × JSON) :=
  let acc := numAcc [s.cur_tok] s.iter
  match F.fromStr acc.1 with
  | some n => .ok (JSONValue.Number n, acc.2)
  | none => .panic "called Result::unwrap() on an Err value"

mutual
/-- `JSON::parse_any`: dispatch on the current character.  The fuel
parameter makes the recursion total; every recursive call decrements it. -/
def JSON.parse_any (F : FloatMod) : Nat → JSON → PResult (JSONValue F.Num × JSON)
  | 0, _ => .fuelOut
  | fuel + 1, s =>
    if s.cur_tok = '\x7b' then JSON.parse_object F fuel s
    else if s.cur_tok = '[' then JSON.parse_array F fuel s
    else if s.cur_tok = 't' || s.cur_tok = 'f' || s.cur_tok = 'n' then
      JSON.parse_literal F s
    else if s.cur_tok = '"' then
      let ps := JSON.parse_string s
      .ok (JSONValue.String ps.1, ps.2)
    else if isAsciiDigit s.cur_tok || s.cur_tok = '-' then
      JSON.parse_number F s
    else
      .panic ("Unexpected token \"" ++ s.cur_tok.toString ++
        "\" at start of JSON value.")

/-- `JSON::parse_object`: `expect('{')`, the empty-map early return, then
the member loop. -/
def JSON.parse_object (F : FloatMod) : Nat → JSON → PResult (JSONValue F.Num × JSON)
  | 0, _ => .fuelOut
  | fuel + 1, s =>
    let s1 := JSON.expect '\x7b' s
    if s1.cur_tok = '\x7d' then .ok (JSONValue.Object [], s1.next_tok)
    else JSON.objLoop F fuel [] s1

/-- The `loop` of `parse_object`: parse a key string, `expect(':')`, parse
a value, insert, then branch on the separator character. -/
def JSON.objLoop (F : FloatMod) :
    Nat → List (List Char × JSONValue F.Num) → JSON → PResult (JSONValue F.Num × JSON)
  | 0, _, _ => .fuelOut
  | fuel + 1, map, s =>
    let ps := JSON.parse_string s
    let s2 := JSON.expect ':' ps.2
    match JSON.parse_any F fuel s2 with
    | .fuelOut => .fuelOut
    | .panic m => .panic m
    | .ok (v, s3) =>
      let map' := btInsert ps.1 v map
      let c := s3.cur_tok
      let s4 := s3.next_tok
      if c = ',' then JSON.objLoop F fuel map' s4
      else if c = '\x7d' then .ok (JSONValue.Object map', s4)
      else .panic ("Unexpected token \"" ++ c.toString ++
        "\" in the end of object.")

/-- `JSON::parse_array`: `expect('[')`, the empty early return, then the
element loop. -/
def JSON.parse_array (F : FloatMod) : Nat → JSON → PResult (JSONValue F.Num × JSON)
  | 0, _ => .fuelOut
  | fuel + 1, s =>
    let s1 := JSON.expect '[' s
    if s1.cur_tok = ']' then .ok (JSONValue.Array [], s1.next_tok)
    else JSON.arrLoop F fuel [] s1

/-- The `loop` of `parse_array`: parse a value, `push_back`, then branch on
the separator character. -/
def JSON.arrLoop (F : FloatMod) :
    Nat → List (JSONValue F.Num) → JSON → PResult (JSONValue F.Num × JSON)
  | 0, _, _ => .fuelOut
  | fuel + 1, arr, s =>
    match JSON.parse_any F fuel s with
    | .fuelOut => .fuelOut
    | .panic m => .panic m
    | .ok (v, s3) =>
      let arr' := arr ++ [v]
      let c := s3.cur_tok
      let s4 := s3.next_tok
      if c = ',' then JSON.arrLoop F fuel arr' s4
      else if c = ']' then .ok (JSONValue.Array arr', s4)
      else .panic ("Unexpected token \"" ++ c.toString ++
        "\" in the end of array.")
end

/-- `JSON::new`: `iter.next().unwrap()` — panics when the input is empty;
otherwise the first character (whitespace included) becomes `cur_tok`. -/
def JSON.new : List Char → PResult JSON
  | [] => .panic "called Option::unwrap() on a None value"
  | c :: cs => .ok ⟨c, cs⟩

/-- The fuel the top-level entry point passes to `parse_any`; proved
sufficient for any input by `parse_any_fuel_sufficient`. -/
def parseFuel (text : List Char) : Nat := 3 * text.length + 10

/-- `JSON::parse` (i.e. `JSON::new(input).parse()`): build the cursor and
run `parse_any`, returning the value and discarding the final cursor. -/
def parse (F : FloatMod) (text : List Char) : PResult (JSONValue F.Num) :=
  match JSON.new text with
  | .panic m => .panic m
  | .fuelOut => .fuelOut
  | .ok s =>
    match JSON.parse_any F (parseFuel text) s with
    | .ok (v, _) => .ok v
    | .panic m => .panic m
    | .fuelOut => .fuelOut

/-- Decimal digits of a natural number (helper for the integer model). -/
def natToChars (n : Nat) : List Char := (Nat.repr n).data

/-- Read a non-empty all-digit run as a natural number. -/
def digitsToNat : List Char → Option Nat
  | [] => none
  | l =>
    if l.all (fun c => isAsciiDigit c) then
      some (l.foldl (fun acc c => acc * 10 + (c.toNat - '0'.toNat)) 0)
    else none

/-- Integer-valued lexeme parser for the concrete model: an optional leading
`'-'` followed by a non-empty digit run (on such lexemes Rust's
`str::parse::<f64>()` succeeds with the same value; on `"-"`, `""` or runs
with other characters it errs, as `none` does here). -/
def intFromStr : List Char → Option Int
  | '-' :: rest => (digitsToNat rest).map (fun m => -(m : Int))
  | l => (digitsToNat l).map (fun m => (m : Int))

/-- The concrete float model used for closed evaluations: integer payloads,
decimal formatting (agreeing with Rust's `f64` `Display` on integral
values), `intFromStr` parsing. -/
def intModel : FloatMod where
  Num := Int
  fmt := fun n => (Int.repr n).data
  fromStr := intFromStr

/-- The run of characters the number loop accumulates after the current
character, together with the cursor state it leaves behind: significant
(non-whitespace) characters are taken while they are ASCII digits or `'.'`,
and the first significant non-matching character (or the sentinel) becomes
the new current character. -/
def numScan : List Char → List Char × JSON
  | [] => ([], ⟨nulChar, []⟩)
  | c :: cs =>
    if isAsciiWs c then numScan cs
    else if isAsciiDigit c || c = '.' then
      ((numScan cs).1.cons c, (numScan cs).2)
    else ([], ⟨c, cs⟩)

/-- `parse` with an explicit fuel argument (same body as `parse`). -/
def parseWith (F : FloatMod) (fuel : Nat) (text : List Char) :
    PResult (JSONValue F.Num) :=
  match JSON.new text with
  | .panic m => .panic m
  | .fuelOut => .fuelOut
  | .ok s =>
    match JSON.parse_any F fuel s with
    | .ok (v, _) => .ok v
    | .panic m => .panic m
    | .fuelOut => .fuelOut

/-- Keys strictly ascending in the Rust `String` order. -/
def keysSortedb {ν : Type} : List (List Char × JSONValue ν) → Bool
  | [] => true
  | [_] => true
  | a :: b :: r => strLtb a.1 b.1 && keysSortedb (b :: r)

mutual
/-- Every `Object` node of the value has strictly sorted keys. -/
def objsSorted {ν : Type} : JSONValue ν → Prop
  | .Number _ => True
  | .String _ => True
  | .Bool _ => True
  | .Null => True
  | .Array xs => objsSortedList xs
  | .Object m => keysSortedb m = true ∧ objsSortedMem m

def objsSortedList {ν : Type} : List (JSONValue ν) → Prop
  | [] => True
  | x :: xs => objsSorted x ∧ objsSortedList xs

def objsSortedMem {ν : Type} : List (List Char × JSONValue ν) → Prop
  | [] => True
  | kv :: m => objsSorted kv.2 ∧ objsSortedMem m
end

/-! ### Round trip (claim C1): definitions -/

/-- The cursor obtained by making the head of `l` current, with `t`
appended to the unread input (the parser position at the start of a
rendered fragment `l` followed by trailing text `t`). -/
def feed : List Char → List Char → JSON
  | [], t => ⟨nulChar, t⟩
  | c :: cs, t => ⟨c, cs ++ t⟩

/-- The trailing text cannot extend a numeric run: its first significant
character is neither a digit nor `'.'`. -/
def numStop (t : List Char) : Prop :=
  (isAsciiDigit (nextTokChars t).1 || (nextTokChars t).1 = '.') = false

/-- The rendered text that follows a member's value inside an object body:
either the separator and the next member, or the closing of the object,
followed by the trailing text `t`. -/
def objRest (F : FloatMod) : List (List Char × JSONValue F.Num) → Nat → List Char → List Char
  | [], d, t => '\n' :: (indstrend d ++ '\x7d' :: t)
  | (k, v) :: ms, d, t =>
    ',' :: '\n' :: (indstr d ++ '"' :: (k ++ '"' :: ':' :: ' ' ::
      (JSONValue.repr F v (d + 1) ++ objRest F ms d t)))

/-- The rendered text that follows an element inside an array body. -/
def arrRest (F : FloatMod) : List (JSONValue F.Num) → Nat → List Char → List Char
  | [], d, t => '\n' :: (indstrend d ++ ']' :: t)
  | x :: xs, d, t =>
    ',' :: '\n' :: (indstr d ++ (JSONValue.repr F x (d + 1) ++ arrRest F xs d t))

/-- A well-behaved number payload: its formatted text is a lexeme the
number loop accumulates whole (first character a digit or `'-'`, the rest
digits or `'.'`) and the float parser maps it back to the same value.
Finite, non-NaN `f64` values have exactly this property under Rust's
`Display`/`FromStr` pair. -/
def numFmtOk (F : FloatMod) (n : F.Num) : Prop :=
  F.fmt n ≠ [] ∧
  (isAsciiDigit (F.fmt n).headI || (F.fmt n).headI = '-') = true ∧
  (∀ c ∈ (F.fmt n).tail, (isAsciiDigit c || c = '.') = true) ∧
  F.fromStr (F.fmt n) = some n

mutual
/-- Well-formedness for the round trip: strings and keys contain no `'"'`,
number payloads are well-behaved (`numFmtOk`), and Object nodes satisfy
the `BTreeMap` representation invariant (strictly sorted keys). -/
def WF (F : FloatMod) : JSONValue F.Num → Prop
  | .Number n => numFmtOk F n
  | .String s => '"' ∉ s
  | .Bool _ => True
  | .Null => True
  | .Array xs => WFList F xs
  | .Object m => keysSortedb m = true ∧ WFMem F m

def WFList (F : FloatMod) : List (JSONValue F.Num) → Prop
  | [] => True
  | x :: xs => WF F x ∧ WFList F xs

def WFMem (F : FloatMod) : List (List Char × JSONValue F.Num) → Prop
  | [] => True
  | kv :: m => ('"' ∉ kv.1) ∧ WF F kv.2 ∧ WFMem F m
end

/-! ### General lemmas about the cursor -/

/-- `next_tok` never lengthens the remaining input. -/
theorem nextTokChars_length_le : ∀ r : List Char, (nextTokChars r).2.length ≤ r.length := by
  intro r
  induction r with
  | nil => simp [nextTokChars]
  | cons x xs ih =>
    by_cases hw : isAsciiWs x
    · simp only [nextTokChars, hw, if_true, List.length_cons]
      exact Nat.le_trans ih (Nat.le_succ _)
    · simp [nextTokChars, hw]

/-- On a non-empty remainder, `next_tok` consumes at least one character. -/
theorem nextTokChars_length_lt : ∀ r : List Char, r ≠ [] → (nextTokChars r).2.length < r.length := by
  intro r hr
  match r with
  | x :: xs =>
    by_cases hw : isAsciiWs x
    · simp only [nextTokChars, hw, if_true, List.length_cons]
      exact Nat.lt_succ_of_le (nextTokChars_length_le xs)
    · simp [nextTokChars, hw]

/-- One `next_tok` step of the number loop, phrased through `nextTokChars`
exactly as the source performs it. -/
theorem numAcc_eq_nextTok (acc : List Char) (r : List Char) :
    numAcc acc r =
      (if (isAsciiDigit (nextTokChars r).1 || (nextTokChars r).1 = '.') = true then
        numAcc (acc ++ [(nextTokChars r).1]) (nextTokChars r).2
      else (acc, ⟨(nextTokChars r).1, (nextTokChars r).2⟩)) := by
  induction r with
  | nil => simp [numAcc, nextTokChars, nulChar, isAsciiDigit]
  | cons c cs ih =>
    by_cases hw : isAsciiWs c
    · simpa [numAcc, nextTokChars, hw] using ih
    · by_cases hd : (isAsciiDigit c || c = '.') = true <;>
        simp [numAcc, nextTokChars, hw, hd]

/-! ### Claim theorems (first batch) -/

/-- Claim C2 (code bug evidence): `expect` never fails.  On the state whose
current character is `'?'`, `expect(':')` raises no error: it silently
consumes the mismatched character and advances; in general `expect ch` acts
as `next_tok` for every argument and state. -/
theorem C2_expect_mismatch_no_failure :
    JSON.expect ':' ⟨'?', ['1', '\x7d']⟩ = ⟨'1', ['\x7d']⟩ ∧
      ∀ (ch : Char) (s : JSON), JSON.expect ch s = JSON.next_tok s :=
  ⟨rfl, fun _ _ => rfl⟩

/-- Claim C3 (counterexample): parsing `{"b":1,"a":2}` yields the Object
whose iteration order is `a` before `b` — the sorted `BTreeMap` order —
although the first occurrences in the input were `b` before `a`. -/
theorem C3_counterexample :
    parse intModel "\x7b\"b\":1,\"a\":2\x7d".data =
      PResult.ok (JSONValue.Object
        [("a".data, JSONValue.Number (2 : Int)), ("b".data, JSONValue.Number (1 : Int))]) ∧
    [("a".data : List Char), "b".data] ≠ ["b".data, "a".data] :=
  ⟨rfl, by decide⟩

/-- Claim C4 (counterexample): a parse failure surfaces as a panic — the
model of a Rust process abort — not as a typed error value. -/
theorem C4_counterexample :
    parse intModel "?".data =
      PResult.panic "Unexpected token \"?\" at start of JSON value." := rfl

/-- Claim C4 (amended): when the first character of the input matches no
value production, `parse` panics with the `parse_any` dispatch message
naming the character (no offset); the code has no typed error channel. -/
theorem C4_failure_is_panic (F : FloatMod) (c : Char) (rest : List Char)
    (h1 : c ≠ '\x7b') (h2 : c ≠ '[') (h3 : c ≠ 't') (h4 : c ≠ 'f') (h5 : c ≠ 'n')
    (h6 : c ≠ '"') (h7 : isAsciiDigit c = false) (h8 : c ≠ '-') :
    parse F (c :: rest) =
      PResult.panic ("Unexpected token \"" ++ c.toString ++ "\" at start of JSON value.") := by
  have hf : parseFuel (c :: rest) = (3 * rest.length + 12) + 1 := by
    simp [parseFuel]
    omega
  simp only [parse, JSON.new, hf, JSON.parse_any, h1, h2, h3, h4, h5, h6, h7, h8]
  simp

/-- Witness for `C4_failure_is_panic` at the character `'x'`. -/
theorem C4_failure_is_panic_witness :
    parse intModel "x".data =
      PResult.panic "Unexpected token \"x\" at start of JSON value." :=
  C4_failure_is_panic intModel 'x' [] (by decide) (by decide) (by decide)
    (by decide) (by decide) (by decide) (by decide) (by decide)

/-- Claim C5 (counterexample): on empty input the parser does not produce
an end-of-input sentinel and no `SyntaxError`: `JSON::new` unwraps the
first character and panics. -/
theorem C5_counterexample :
    parse intModel [] = PResult.panic "called Option::unwrap() on a None value" := rfl

/-- Claim C5 (amended): for every float model, parsing the empty input
crashes with the `Option::unwrap` panic raised by `JSON::new`. -/
theorem C5_empty_input_panics (F : FloatMod) :
    parse F [] = PResult.panic "called Option::unwrap() on a None value" := rfl

/-- Claim C6 (counterexample): the accumulated numeric run excludes `'e'`
(so `1e5` parses successfully as the number `1`, not `100000`), and an
invalid lexeme (`-` alone) crashes via `Result::unwrap` instead of
reporting a syntax error. -/
theorem C6_counterexample :
    parse intModel "1e5".data = PResult.ok (JSONValue.Number (1 : Int)) ∧
    parse intModel "-".data = PResult.panic "called Result::unwrap() on an Err value" :=
  ⟨rfl, rfl⟩

/-- Claim C10: replacing the `':'` after an object key by any non-whitespace
character parses successfully and yields the same Object as the well-formed
document, because `expect` discards its mismatch message and advances
unconditionally. -/
theorem C10_punctuation_check_noop (c : Char) (hc : isAsciiWs c = false) :
    parse intModel ('\x7b' :: '"' :: 'a' :: '"' :: c :: '1' :: '\x7d' :: []) =
      PResult.ok (JSONValue.Object [("a".data, JSONValue.Number (1 : Int))]) ∧
    parse intModel "\x7b\"a\":1\x7d".data =
      PResult.ok (JSONValue.Object [("a".data, JSONValue.Number (1 : Int))]) := by
  refine ⟨?_, rfl⟩
  have key : JSON.next_tok ⟨'"', c :: '1' :: '\x7d' :: []⟩ = ⟨c, '1' :: '\x7d' :: []⟩ := by
    simp [JSON.next_tok, nextTokChars, hc]
  have l1 : JSON.objLoop intModel 29 [] ⟨'"', 'a' :: '"' :: c :: '1' :: '\x7d' :: []⟩
      = PResult.ok (JSONValue.Object [("a".data, JSONValue.Number (1 : Int))], ⟨nulChar, []⟩) := by
    rw [show (29 : Nat) = 28 + 1 from rfl]
    rw [JSON.objLoop]
    simp only [JSON.parse_string, List.takeWhile, List.dropWhile, List.drop, key]
    rfl
  have l0 : JSON.parse_any intModel 31 ⟨'\x7b', '"' :: 'a' :: '"' :: c :: '1' :: '\x7d' :: []⟩
      = PResult.ok (JSONValue.Object [("a".data, JSONValue.Number (1 : Int))], ⟨nulChar, []⟩) := by
    have step : JSON.parse_any intModel 31 ⟨'\x7b', '"' :: 'a' :: '"' :: c :: '1' :: '\x7d' :: []⟩
        = JSON.objLoop intModel 29 [] ⟨'"', 'a' :: '"' :: c :: '1' :: '\x7d' :: []⟩ := rfl
    rw [step, l1]
  have hf : parseFuel ('\x7b' :: '"' :: 'a' :: '"' :: c :: '1' :: '\x7d' :: []) = 31 := rfl
  simp only [parse, JSON.new, hf, l0]

/-- Witness for `C10_punctuation_check_noop` at `c := '?'`: the input
`{"a"?1}` parses to the same Object as `{"a":1}`. -/
theorem C10_punctuation_check_noop_witness :
    parse intModel ('\x7b' :: '"' :: 'a' :: '"' :: '?' :: '1' :: '\x7d' :: []) =
      PResult.ok (JSONValue.Object [("a".data, JSONValue.Number (1 : Int))]) ∧
    parse intModel "\x7b\"a\":1\x7d".data =
      PResult.ok (JSONValue.Object [("a".data, JSONValue.Number (1 : Int))]) :=
  C10_punctuation_check_noop '?' (by decide)

/-! ### The serializer's shape (claim C8) -/

theorem flatten_replicate_pair (n : Nat) :
    (List.replicate n [' ', ' ']).flatten = List.replicate (2 * n) ' ' := by
  induction n with
  | zero => rfl
  | succ m ih =>
    rw [List.replicate_succ, List.flatten_cons, ih,
      show 2 * (m + 1) = 2 * m + 1 + 1 by omega,
      List.replicate_succ, List.replicate_succ]
    rfl

/-- `indstr` is `2 * (indent + 1)` spaces. -/
theorem indstr_eq_replicate (d : Nat) : indstr d = List.replicate (2 * (d + 1)) ' ' :=
  flatten_replicate_pair (d + 1)

/-- `indstrend` is `2 * indent` spaces. -/
theorem indstrend_eq_replicate (d : Nat) : indstrend d = List.replicate (2 * d) ' ' :=
  flatten_replicate_pair d

theorem intercalate_singleton {α : Type} (sep : List α) (a : List α) :
    List.intercalate sep [a] = a := by
  simp [List.intercalate, List.intersperse]

theorem intercalate_cons₂ {α : Type} (sep a b : List α) (l : List (List α)) :
    List.intercalate sep (a :: b :: l) = a ++ (sep ++ List.intercalate sep (b :: l)) := by
  simp [List.intercalate, List.intersperse]

/-- The recursive array-entry helper is the `map`/`join` of the source. -/
theorem reprArrItems_intercalate (F : FloatMod) (d : Nat) :
    ∀ (x : JSONValue F.Num) (xs : List (JSONValue F.Num)),
      reprArrItems F (x :: xs) d =
        List.intercalate (',' :: '\n' :: [])
          ((x :: xs).map (fun y => indstr d ++ JSONValue.repr F y (d + 1))) := by
  intro x xs
  induction xs generalizing x with
  | nil => simp [reprArrItems, intercalate_singleton]
  | cons y ys ih =>
    simp only [reprArrItems, List.map, intercalate_cons₂]
    rw [ih y]
    simp

/-- The recursive object-entry helper is the `map`/`join` of the source. -/
theorem reprObjItems_intercalate (F : FloatMod) (d : Nat) :
    ∀ (e : List Char × JSONValue F.Num) (m : List (List Char × JSONValue F.Num)),
      reprObjItems F (e :: m) d =
        List.intercalate (',' :: '\n' :: [])
          ((e :: m).map (fun kv =>
            indstr d ++ '"' :: (kv.1 ++ '"' :: ':' :: ' ' :: JSONValue.repr F kv.2 (d + 1)))) := by
  intro e m
  induction m generalizing e with
  | nil => simp [reprObjItems, intercalate_singleton]
  | cons y ys ih =>
    obtain ⟨k, v⟩ := e
    simp only [reprObjItems, List.map, intercalate_cons₂]
    rw [ih y]
    simp

/-- Claim C8: a non-empty Array/Object at depth `d` renders as the opening
bracket, a newline, the children rendered at depth `d+1` each indented by
`2*(d+1)` spaces and joined by `",\n"` (object entries prefixed by the
quoted key, a colon and a space), a newline, and the closing bracket
indented by `2*d` spaces; the empty containers render as exactly the
two-character bracket pairs. -/
theorem C8_render_format (F : FloatMod) (d : Nat) :
    (∀ (x : JSONValue F.Num) (xs : List (JSONValue F.Num)),
      JSONValue.repr F (JSONValue.Array (x :: xs)) d =
        '[' :: '\n' ::
          (List.intercalate (',' :: '\n' :: [])
            ((x :: xs).map (fun y =>
              List.replicate (2 * (d + 1)) ' ' ++ JSONValue.repr F y (d + 1))) ++
          '\n' :: (List.replicate (2 * d) ' ' ++ [']']))) ∧
    (∀ (e : List Char × JSONValue F.Num) (m : List (List Char × JSONValue F.Num)),
      JSONValue.repr F (JSONValue.Object (e :: m)) d =
        '\x7b' :: '\n' ::
          (List.intercalate (',' :: '\n' :: [])
            ((e :: m).map (fun kv =>
              List.replicate (2 * (d + 1)) ' ' ++
                '"' :: (kv.1 ++ '"' :: ':' :: ' ' :: JSONValue.repr F kv.2 (d + 1)))) ++
          '\n' :: (List.replicate (2 * d) ' ' ++ ['\x7d']))) ∧
    JSONValue.repr F (JSONValue.Array []) d = ['[', ']'] ∧
    JSONValue.repr F (JSONValue.Object []) d = ['\x7b', '\x7d'] := by
  refine ⟨?_, ?_, rfl, rfl⟩
  · intro x xs
    rw [show JSONValue.repr F (JSONValue.Array (x :: xs)) d =
      '[' :: '\n' :: (reprArrItems F (x :: xs) d ++
        '\n' :: (indstrend d ++ [']'])) from rfl]
    rw [reprArrItems_intercalate, indstrend_eq_replicate]
    simp [indstr_eq_replicate]
  · intro e m
    rw [show JSONValue.repr F (JSONValue.Object (e :: m)) d =
      '\x7b' :: '\n' :: (reprObjItems F (e :: m) d ++
        '\n' :: (indstrend d ++ ['\x7d'])) from rfl]
    rw [reprObjItems_intercalate, indstrend_eq_replicate]
    simp [indstr_eq_replicate]

/-! ### The number lexeme (claim C6, amended) -/

theorem numAcc_eq_scan : ∀ (r acc : List Char),
    numAcc acc r = (acc ++ (numScan r).1, (numScan r).2) := by
  intro r
  induction r with
  | nil => intro acc; simp [numAcc, numScan]
  | cons c cs ih =>
    intro acc
    by_cases hw : isAsciiWs c
    · simp [numAcc, numScan, hw, ih]
    · by_cases hd : (isAsciiDigit c || c = '.') = true
      · simp [numAcc, numScan, hw, hd, ih]
      · simp [numAcc, numScan, hw, hd]

theorem numScan_chars : ∀ r : List Char, ∀ x ∈ (numScan r).1,
    (isAsciiDigit x || x = '.') = true := by
  intro r
  induction r with
  | nil => simp [numScan]
  | cons c cs ih =>
    by_cases hw : isAsciiWs c
    · simpa [numScan, hw] using ih
    · by_cases hd : (isAsciiDigit c || c = '.') = true
      · simp only [numScan, hw, hd]
        simp only [Bool.false_eq_true, if_false, if_true, List.cons, List.mem_cons]
        rintro x (rfl | hx)
        · exact hd
        · exact ih x hx
      · simp [numScan, hw, hd]

/-- Claim C6 (amended): `parse_number` accumulates the current character
followed by the maximal significant run of characters from
`{'0'..'9', '.'}` (`numScan`; `'-'`, `'+'`, `'e'`, `'E'` never continue a
number), feeds the accumulated text to the float parser, and panics via
`Result::unwrap` — rather than reporting a typed error — when that text is
not a valid numeric lexeme. -/
theorem C6_parse_number_spec (F : FloatMod) (c : Char) (r : List Char) :
    (∀ x ∈ (numScan r).1, (isAsciiDigit x || x = '.') = true) ∧
    JSON.parse_number F ⟨c, r⟩ =
      (match F.fromStr (c :: (numScan r).1) with
       | some n => PResult.ok (JSONValue.Number n, (numScan r).2)
       | none => PResult.panic "called Result::unwrap() on an Err value") := by
  refine ⟨numScan_chars r, ?_⟩
  show (match F.fromStr (numAcc [c] r).1 with
    | some n => PResult.ok (JSONValue.Number n, (numAcc [c] r).2)
    | none => PResult.panic "called Result::unwrap() on an Err value") = _
  rw [numAcc_eq_scan]
  simp

/-! ### Consumption lemmas: parsing never grows the remaining input -/

theorem next_tok_iter_le (s : JSON) : s.next_tok.iter.length ≤ s.iter.length :=
  nextTokChars_length_le s.iter

theorem next_tok_iter_lt (s : JSON) (h : s.iter ≠ []) :
    s.next_tok.iter.length < s.iter.length :=
  nextTokChars_length_lt s.iter h

theorem parse_string_iter_le (s : JSON) :
    (JSON.parse_string s).2.iter.length ≤ s.iter.length := by
  simp only [JSON.parse_string]
  refine Nat.le_trans (next_tok_iter_le _) ?_
  simp only
  refine Nat.le_trans (List.length_drop 1 _ ▸ Nat.sub_le _ _) ?_
  exact (List.dropWhile_suffix _).length_le

theorem parse_string_iter_lt (s : JSON) (h : s.iter ≠ []) :
    (JSON.parse_string s).2.iter.length < s.iter.length := by
  simp only [JSON.parse_string]
  refine Nat.lt_of_le_of_lt (next_tok_iter_le _) ?_
  simp only
  rw [List.length_drop]
  have hd : (s.iter.dropWhile (fun c => c != '"')).length ≤ s.iter.length :=
    (List.dropWhile_suffix _).length_le
  have hpos : 0 < s.iter.length := List.length_pos.mpr h
  cases hq : s.iter.dropWhile (fun c => c != '"') with
  | nil => simp [hq] at hd ⊢; omega
  | cons a l =>
    rw [hq] at hd
    simp only [List.length_cons] at hd ⊢
    omega

theorem numAcc_iter_le (r : List Char) : ∀ acc, (numAcc acc r).2.iter.length ≤ r.length := by
  induction r with
  | nil => intro acc; simp [numAcc]
  | cons c cs ih =>
    intro acc
    by_cases hw : isAsciiWs c
    · simp only [numAcc, hw, if_true]
      exact Nat.le_trans (ih acc) (Nat.le_succ _)
    · by_cases hd : (isAsciiDigit c || c = '.') = true
      · simp only [numAcc, hw, hd, Bool.false_eq_true, if_false, if_true]
        exact Nat.le_trans (ih _) (Nat.le_succ _)
      · simp [numAcc, hw, hd]

theorem numAcc_iter_lt (r : List Char) (h : r ≠ []) :
    ∀ acc, (numAcc acc r).2.iter.length < r.length := by
  match r with
  | c :: cs =>
    intro acc
    by_cases hw : isAsciiWs c
    · simp only [numAcc, hw, if_true]
      exact Nat.lt_succ_of_le (numAcc_iter_le cs acc)
    · by_cases hd : (isAsciiDigit c || c = '.') = true
      · simp only [numAcc, hw, hd, Bool.false_eq_true, if_false, if_true]
        exact Nat.lt_succ_of_le (numAcc_iter_le cs _)
      · simp [numAcc, hw, hd]

theorem parse_number_iter_le (F : FloatMod) (s : JSON) (v : JSONValue F.Num) (s' : JSON)
    (h : JSON.parse_number F s = .ok (v, s')) : s'.iter.length ≤ s.iter.length := by
  simp only [JSON.parse_number] at h
  split at h
  · cases h
    exact numAcc_iter_le s.iter _
  · cases h

theorem parse_number_iter_lt (F : FloatMod) (s : JSON) (v : JSONValue F.Num) (s' : JSON)
    (h : JSON.parse_number F s = .ok (v, s')) (hne : s.iter ≠ []) :
    s'.iter.length < s.iter.length := by
  simp only [JSON.parse_number] at h
  split at h
  · cases h
    exact numAcc_iter_lt s.iter hne _
  · cases h

theorem literalStep_iter_le {α : Type} (tl : List Char) (res : α) (s : JSON)
    (v : α) (s' : JSON) (h : literalStep tl res s = .ok (v, s')) :
    s'.iter.length ≤ s.iter.length := by
  simp only [literalStep] at h
  split at h
  · cases h
    refine Nat.le_trans (next_tok_iter_le _) ?_
    simp only
    rw [List.length_drop]
    omega
  · cases h

theorem literalStep_iter_lt {α : Type} (tl : List Char) (res : α) (s : JSON)
    (v : α) (s' : JSON) (h : literalStep tl res s = .ok (v, s')) (hne : s.iter ≠ [])
    (htl : tl ≠ []) : s'.iter.length < s.iter.length := by
  simp only [literalStep] at h
  split at h
  · cases h
    refine Nat.lt_of_le_of_lt (next_tok_iter_le _) ?_
    simp only
    rw [List.length_drop]
    have h1 : 0 < s.iter.length := List.length_pos.mpr hne
    have h2 : 0 < tl.length := List.length_pos.mpr htl
    omega
  · cases h

theorem parse_literal_iter_le (F : FloatMod) (s : JSON) (v : JSONValue F.Num) (s' : JSON)
    (h : JSON.parse_literal F s = .ok (v, s')) : s'.iter.length ≤ s.iter.length := by
  simp only [JSON.parse_literal] at h
  split at h
  · exact literalStep_iter_le _ _ _ _ _ h
  · split at h
    · exact literalStep_iter_le _ _ _ _ _ h
    · split at h
      · exact literalStep_iter_le _ _ _ _ _ h
      · cases h

theorem parse_literal_iter_lt (F : FloatMod) (s : JSON) (v : JSONValue F.Num) (s' : JSON)
    (h : JSON.parse_literal F s = .ok (v, s')) (hne : s.iter ≠ []) :
    s'.iter.length < s.iter.length := by
  simp only [JSON.parse_literal] at h
  split at h
  · exact literalStep_iter_lt _ _ _ _ _ h hne (by decide)
  · split at h
    · exact literalStep_iter_lt _ _ _ _ _ h hne (by decide)
    · split at h
      · exact literalStep_iter_lt _ _ _ _ _ h hne (by decide)
      · cases h

/-- No parser procedure ever grows the remaining input: every successful
outcome's cursor has at most as many unread characters as the input
cursor.  Proved for the whole mutual family by induction on fuel. -/
theorem shrink_all (F : FloatMod) : ∀ f : Nat,
    (∀ s v s', JSON.parse_any F f s = .ok (v, s') → s'.iter.length ≤ s.iter.length) ∧
    (∀ s v s', JSON.parse_object F f s = .ok (v, s') → s'.iter.length ≤ s.iter.length) ∧
    (∀ mp s v s', JSON.objLoop F f mp s = .ok (v, s') → s'.iter.length ≤ s.iter.length) ∧
    (∀ s v s', JSON.parse_array F f s = .ok (v, s') → s'.iter.length ≤ s.iter.length) ∧
    (∀ ar s v s', JSON.arrLoop F f ar s = .ok (v, s') → s'.iter.length ≤ s.iter.length) := by
  intro f
  induction f with
  | zero =>
    refine ⟨?_, ?_, ?_, ?_, ?_⟩ <;> intros <;> rename_i h <;>
      simp [JSON.parse_any, JSON.parse_object, JSON.objLoop, JSON.parse_array,
        JSON.arrLoop] at h
  | succ f ih =>
    obtain ⟨ihA, ihO, ihOL, ihArr, ihAL⟩ := ih
    have hexp : ∀ (ch : Char) (s : JSON), (JSON.expect ch s).iter.length ≤ s.iter.length :=
      fun ch s => next_tok_iter_le s
    refine ⟨?_, ?_, ?_, ?_, ?_⟩
    · -- parse_any
      intro s v s' h
      simp only [JSON.parse_any] at h
      split at h
      · exact ihO _ _ _ h
      · split at h
        · exact ihArr _ _ _ h
        · split at h
          · exact parse_literal_iter_le F _ _ _ h
          · split at h
            · simp only [PResult.ok.injEq, Prod.mk.injEq] at h
              obtain ⟨-, h2⟩ := h
              subst h2
              exact parse_string_iter_le s
            · split at h
              · exact parse_number_iter_le F _ _ _ h
              · cases h
    · -- parse_object
      intro s v s' h
      simp only [JSON.parse_object] at h
      split at h
      · simp only [PResult.ok.injEq, Prod.mk.injEq] at h
        obtain ⟨-, h2⟩ := h
        subst h2
        exact Nat.le_trans (next_tok_iter_le _) (hexp _ _)
      · exact Nat.le_trans (ihOL _ _ _ _ h) (hexp _ _)
    · -- objLoop
      intro mp s v s' h
      simp only [JSON.objLoop] at h
      split at h
      · cases h
      · cases h
      · rename_i v0 s3 heq
        have h3 : s3.iter.length ≤ s.iter.length :=
          Nat.le_trans (ihA _ _ _ heq)
            (Nat.le_trans (hexp _ _) (parse_string_iter_le s))
        split at h
        · exact Nat.le_trans (ihOL _ _ _ _ h)
            (Nat.le_trans (next_tok_iter_le _) h3)
        · split at h
          · simp only [PResult.ok.injEq, Prod.mk.injEq] at h
            obtain ⟨-, h2⟩ := h
            subst h2
            exact Nat.le_trans (next_tok_iter_le _) h3
          · cases h
    · -- parse_array
      intro s v s' h
      simp only [JSON.parse_array] at h
      split at h
      · simp only [PResult.ok.injEq, Prod.mk.injEq] at h
        obtain ⟨-, h2⟩ := h
        subst h2
        exact Nat.le_trans (next_tok_iter_le _) (hexp _ _)
      · exact Nat.le_trans (ihAL _ _ _ _ h) (hexp _ _)
    · -- arrLoop
      intro ar s v s' h
      simp only [JSON.arrLoop] at h
      split at h
      · cases h
      · cases h
      · rename_i v0 s3 heq
        have h3 : s3.iter.length ≤ s.iter.length := ihA _ _ _ heq
        split at h
        · exact Nat.le_trans (ihAL _ _ _ _ h)
            (Nat.le_trans (next_tok_iter_le _) h3)
        · split at h
          · simp only [PResult.ok.injEq, Prod.mk.injEq] at h
            obtain ⟨-, h2⟩ := h
            subst h2
            exact Nat.le_trans (next_tok_iter_le _) h3
          · cases h

/-! ### Totality of the leaf parsers, and behaviour at end of input -/

theorem parse_literal_ne_fuelOut (F : FloatMod) (s : JSON) :
    JSON.parse_literal F s ≠ .fuelOut := by
  simp only [JSON.parse_literal, literalStep]
  split
  · split <;> simp
  · split
    · split <;> simp
    · split
      · split <;> simp
      · simp

theorem parse_number_ne_fuelOut (F : FloatMod) (s : JSON) :
    JSON.parse_number F s ≠ .fuelOut := by
  simp only [JSON.parse_number]
  split <;> simp

/-- With the sentinel as the current character, `parse_any` matches no
production and panics (given any fuel to inspect the character). -/
theorem parse_any_nul (F : FloatMod) (f : Nat) (hf : 1 ≤ f) (it : List Char) :
    JSON.parse_any F f ⟨nulChar, it⟩ =
      .panic ("Unexpected token \"" ++ nulChar.toString ++ "\" at start of JSON value.") := by
  obtain ⟨g, rfl⟩ : ∃ g, f = g + 1 := ⟨f - 1, by omega⟩
  simp [JSON.parse_any, nulChar, isAsciiDigit]

/-- A successful `parse_any` on an exhausted iterator always leaves the
sentinel cursor. -/
theorem parse_any_eof_ok (F : FloatMod) : ∀ (f : Nat) (c : Char) (v : JSONValue F.Num)
    (s' : JSON), JSON.parse_any F f ⟨c, []⟩ = .ok (v, s') → s' = ⟨nulChar, []⟩ := by
  intro f c v s' h
  match f with
  | 0 => simp [JSON.parse_any] at h
  | f + 1 =>
    simp only [JSON.parse_any] at h
    split at h
    · -- object branch
      match f with
      | 0 => simp [JSON.parse_object] at h
      | f + 1 =>
        simp only [JSON.parse_object, JSON.expect, JSON.next_tok, nextTokChars] at h
        rw [if_neg (show ¬(nulChar = '\x7d') by decide)] at h
        match f with
        | 0 => simp [JSON.objLoop] at h
        | f + 1 =>
          simp only [JSON.objLoop, JSON.parse_string, JSON.expect, JSON.next_tok,
            nextTokChars, List.takeWhile, List.dropWhile, List.drop] at h
          match f with
          | 0 => simp [JSON.parse_any] at h
          | f + 1 => rw [parse_any_nul F (f + 1) (by omega)] at h; simp at h
    · split at h
      · -- array branch
        match f with
        | 0 => simp [JSON.parse_array] at h
        | f + 1 =>
          simp only [JSON.parse_array, JSON.expect, JSON.next_tok, nextTokChars] at h
          rw [if_neg (show ¬(nulChar = ']') by decide)] at h
          match f with
          | 0 => simp [JSON.arrLoop] at h
          | f + 1 =>
            simp only [JSON.arrLoop] at h
            match f with
            | 0 => simp [JSON.parse_any] at h
            | f + 1 => rw [parse_any_nul F (f + 1) (by omega)] at h; simp at h
      · split at h
        · -- literal branch
          simp only [JSON.parse_literal, literalStep] at h
          split at h
          · rw [if_neg (by simp [List.take])] at h; cases h
          · split at h
            · rw [if_neg (by simp [List.take])] at h; cases h
            · split at h
              · rw [if_neg (by simp [List.take])] at h; cases h
              · cases h
        · split at h
          · -- string branch
            simp only [JSON.parse_string, JSON.next_tok, nextTokChars, List.takeWhile,
              List.dropWhile, List.drop, PResult.ok.injEq, Prod.mk.injEq] at h
            exact h.2.symm
          · split at h
            · -- number branch
              simp only [JSON.parse_number, numAcc] at h
              split at h
              · simp only [PResult.ok.injEq, Prod.mk.injEq] at h
                exact h.2.symm
              · cases h
            · cases h

/-! ### Progress: success from a non-empty iterator strictly consumes -/

theorem parse_object_progress (F : FloatMod) (f : Nat) (s : JSON) (v : JSONValue F.Num)
    (s' : JSON) (h : JSON.parse_object F f s = .ok (v, s')) (hne : s.iter ≠ []) :
    s'.iter.length < s.iter.length := by
  match f with
  | 0 => simp [JSON.parse_object] at h
  | f + 1 =>
    simp only [JSON.parse_object] at h
    have hlt : (JSON.expect '\x7b' s).iter.length < s.iter.length :=
      next_tok_iter_lt s hne
    split at h
    · simp only [PResult.ok.injEq, Prod.mk.injEq] at h
      obtain ⟨-, h2⟩ := h
      subst h2
      exact Nat.lt_of_le_of_lt (next_tok_iter_le _) hlt
    · exact Nat.lt_of_le_of_lt ((shrink_all F f).2.2.1 _ _ _ _ h) hlt

theorem parse_array_progress (F : FloatMod) (f : Nat) (s : JSON) (v : JSONValue F.Num)
    (s' : JSON) (h : JSON.parse_array F f s = .ok (v, s')) (hne : s.iter ≠ []) :
    s'.iter.length < s.iter.length := by
  match f with
  | 0 => simp [JSON.parse_array] at h
  | f + 1 =>
    simp only [JSON.parse_array] at h
    have hlt : (JSON.expect '[' s).iter.length < s.iter.length :=
      next_tok_iter_lt s hne
    split at h
    · simp only [PResult.ok.injEq, Prod.mk.injEq] at h
      obtain ⟨-, h2⟩ := h
      subst h2
      exact Nat.lt_of_le_of_lt (next_tok_iter_le _) hlt
    · exact Nat.lt_of_le_of_lt ((shrink_all F f).2.2.2.2 _ _ _ _ h) hlt

/-- Every successful `parse_any` from a state with unread input consumes at
least one character. -/
theorem parse_any_progress (F : FloatMod) (f : Nat) (s : JSON) (v : JSONValue F.Num)
    (s' : JSON) (h : JSON.parse_any F f s = .ok (v, s')) (hne : s.iter ≠ []) :
    s'.iter.length < s.iter.length := by
  match f with
  | 0 => simp [JSON.parse_any] at h
  | f + 1 =>
    simp only [JSON.parse_any] at h
    split at h
    · exact parse_object_progress F f s v s' h hne
    · split at h
      · exact parse_array_progress F f s v s' h hne
      · split at h
        · exact parse_literal_iter_lt F _ _ _ h hne
        · split at h
          · simp only [PResult.ok.injEq, Prod.mk.injEq] at h
            obtain ⟨-, h2⟩ := h
            subst h2
            exact parse_string_iter_lt s hne
          · split at h
            · exact parse_number_iter_lt F _ _ _ h hne
            · cases h

/-- Fuel sufficiency: with fuel at least linear in the unread input, no
procedure of the family runs out of fuel — the recursion always reaches a
value or a panic.  Strong induction on the unread length. -/
theorem fuel_sufficient (F : FloatMod) : ∀ n : Nat,
    (∀ mp s, s.iter.length ≤ n → ∀ f, 3 * n + 8 ≤ f →
      JSON.objLoop F f mp s ≠ .fuelOut) ∧
    (∀ s, s.iter.length ≤ n → ∀ f, 3 * n + 9 ≤ f →
      JSON.parse_object F f s ≠ .fuelOut) ∧
    (∀ s, s.iter.length ≤ n → ∀ f, 3 * n + 9 ≤ f →
      JSON.parse_array F f s ≠ .fuelOut) ∧
    (∀ s, s.iter.length ≤ n → ∀ f, 3 * n + 10 ≤ f →
      JSON.parse_any F f s ≠ .fuelOut) ∧
    (∀ ar s, s.iter.length ≤ n → ∀ f, 3 * n + 11 ≤ f →
      JSON.arrLoop F f ar s ≠ .fuelOut) := by
  intro n
  induction n using Nat.strong_induction_on with
  | _ n IH =>
  have hOL : ∀ mp s, s.iter.length ≤ n → ∀ f, 3 * n + 8 ≤ f →
      JSON.objLoop F f mp s ≠ .fuelOut := by
    intro mp s hs f hf
    obtain ⟨g, rfl⟩ : ∃ g, f = g + 1 := ⟨f - 1, by omega⟩
    by_cases hemp : s.iter = []
    · have h1 : JSON.parse_string s = ([], ⟨nulChar, []⟩) := by
        simp [JSON.parse_string, hemp, JSON.next_tok, nextTokChars]
      have h2 : JSON.expect ':' (⟨nulChar, []⟩ : JSON) = ⟨nulChar, []⟩ := rfl
      simp only [JSON.objLoop, h1, h2, parse_any_nul F g (by omega)]
      simp
    · have hs2 : (JSON.expect ':' (JSON.parse_string s).2).iter.length < s.iter.length :=
        Nat.lt_of_le_of_lt (next_tok_iter_le _) (parse_string_iter_lt s hemp)
      have hn1 : 1 ≤ n := by
        have := List.length_pos.mpr hemp
        omega
      have hA := (IH ((JSON.expect ':' (JSON.parse_string s).2).iter.length)
        (by omega)).2.2.2.1 (JSON.expect ':' (JSON.parse_string s).2)
        (Nat.le_refl _) g (by omega)
      cases hres : JSON.parse_any F g (JSON.expect ':' (JSON.parse_string s).2) with
      | ok p =>
        obtain ⟨v0, s3⟩ := p
        have hs3 : s3.iter.length ≤ n - 1 := by
          have := (shrink_all F g).1 _ _ _ hres
          omega
        simp only [JSON.objLoop, hres]
        split
        · have hs4 : s3.next_tok.iter.length ≤ n - 1 :=
            Nat.le_trans (next_tok_iter_le s3) hs3
          exact (IH (n - 1) (by omega)).1 _ _ hs4 g (by omega)
        · split <;> simp
      | panic m => simp [JSON.objLoop, hres]
      | fuelOut => exact absurd hres hA
  have hPO : ∀ s, s.iter.length ≤ n → ∀ f, 3 * n + 9 ≤ f →
      JSON.parse_object F f s ≠ .fuelOut := by
    intro s hs f hf
    obtain ⟨g, rfl⟩ : ∃ g, f = g + 1 := ⟨f - 1, by omega⟩
    simp only [JSON.parse_object]
    split
    · simp
    · exact hOL [] _ (Nat.le_trans (next_tok_iter_le s) hs) g (by omega)
  have hPArr : ∀ s, s.iter.length ≤ n → ∀ f, 3 * n + 9 ≤ f →
      JSON.parse_array F f s ≠ .fuelOut := by
    intro s hs f hf
    obtain ⟨g, rfl⟩ : ∃ g, f = g + 1 := ⟨f - 1, by omega⟩
    simp only [JSON.parse_array]
    split
    · simp
    · by_cases hemp : s.iter = []
      · have h1 : JSON.expect '[' s = ⟨nulChar, []⟩ := by
          simp [JSON.expect, JSON.next_tok, hemp, nextTokChars]
        obtain ⟨g2, rfl⟩ : ∃ g2, g = g2 + 1 := ⟨g - 1, by omega⟩
        rw [h1]
        simp only [JSON.arrLoop, parse_any_nul F g2 (by omega)]
        simp
      · have hlt : (JSON.expect '[' s).iter.length ≤ n - 1 := by
          have hx : JSON.expect '[' s = s.next_tok := rfl
          rw [hx]
          have := next_tok_iter_lt s hemp
          have := List.length_pos.mpr hemp
          omega
        have hn1 : 1 ≤ n := by
          have := List.length_pos.mpr hemp
          omega
        exact (IH (n - 1) (by omega)).2.2.2.2 [] _ hlt g (by omega)
  have hPA : ∀ s, s.iter.length ≤ n → ∀ f, 3 * n + 10 ≤ f →
      JSON.parse_any F f s ≠ .fuelOut := by
    intro s hs f hf
    obtain ⟨g, rfl⟩ : ∃ g, f = g + 1 := ⟨f - 1, by omega⟩
    simp only [JSON.parse_any]
    split
    · exact hPO s hs g (by omega)
    · split
      · exact hPArr s hs g (by omega)
      · split
        · exact parse_literal_ne_fuelOut F s
        · split
          · simp
          · split
            · exact parse_number_ne_fuelOut F s
            · simp
  have hAL : ∀ ar s, s.iter.length ≤ n → ∀ f, 3 * n + 11 ≤ f →
      JSON.arrLoop F f ar s ≠ .fuelOut := by
    intro ar s hs f hf
    obtain ⟨g, rfl⟩ : ∃ g, f = g + 1 := ⟨f - 1, by omega⟩
    have hA := hPA s hs g (by omega)
    cases hres : JSON.parse_any F g s with
    | ok p =>
      obtain ⟨v0, s3⟩ := p
      simp only [JSON.arrLoop, hres]
      split
      · rename_i hc
        by_cases hemp : s.iter = []
        · have hseq : s = ⟨s.cur_tok, []⟩ := by
            cases s with
            | mk a b =>
              have hb : b = [] := hemp
              subst hb
              rfl
          have hres' : JSON.parse_any F g ⟨s.cur_tok, []⟩ = .ok (v0, s3) := hseq ▸ hres
          have h3 := parse_any_eof_ok F g s.cur_tok v0 s3 hres'
          rw [h3] at hc
          exact absurd hc (by decide)
        · have hn1 : 1 ≤ n := by
            have := List.length_pos.mpr hemp
            omega
          have hs3 : s3.iter.length ≤ n - 1 := by
            have := parse_any_progress F g s v0 s3 hres hemp
            omega
          have hs4 : s3.next_tok.iter.length ≤ n - 1 :=
            Nat.le_trans (next_tok_iter_le s3) hs3
          exact (IH (n - 1) (by omega)).2.2.2.2 (ar ++ [v0]) s3.next_tok hs4 g (by omega)
      · split <;> simp
    | panic m => simp [JSON.arrLoop, hres]
    | fuelOut => exact absurd hres hA
  exact ⟨hOL, hPO, hPArr, hPA, hAL⟩

/-- The fuel `parse` passes to `parse_any` is sufficient for any cursor
built from the input text. -/
theorem parse_any_fuel_sufficient (F : FloatMod) (s : JSON) (f : Nat)
    (hf : 3 * s.iter.length + 10 ≤ f) : JSON.parse_any F f s ≠ .fuelOut :=
  (fuel_sufficient F s.iter.length).2.2.2.1 s (Nat.le_refl _) f hf

/-- Fuel monotonicity: once the fuel is enough to produce a value or a
panic, adding fuel does not change the outcome. -/
theorem mono_all (F : FloatMod) : ∀ f : Nat,
    (∀ s, JSON.parse_any F f s ≠ .fuelOut →
      JSON.parse_any F (f + 1) s = JSON.parse_any F f s) ∧
    (∀ s, JSON.parse_object F f s ≠ .fuelOut →
      JSON.parse_object F (f + 1) s = JSON.parse_object F f s) ∧
    (∀ mp s, JSON.objLoop F f mp s ≠ .fuelOut →
      JSON.objLoop F (f + 1) mp s = JSON.objLoop F f mp s) ∧
    (∀ s, JSON.parse_array F f s ≠ .fuelOut →
      JSON.parse_array F (f + 1) s = JSON.parse_array F f s) ∧
    (∀ ar s, JSON.arrLoop F f ar s ≠ .fuelOut →
      JSON.arrLoop F (f + 1) ar s = JSON.arrLoop F f ar s) := by
  intro f
  induction f with
  | zero =>
    refine ⟨?_, ?_, ?_, ?_, ?_⟩ <;> intros <;> rename_i h <;> exact absurd rfl h
  | succ f ih =>
    obtain ⟨ihA, ihO, ihOL, ihArr, ihAL⟩ := ih
    refine ⟨?_, ?_, ?_, ?_, ?_⟩
    · -- parse_any
      intro s h
      simp only [JSON.parse_any] at h ⊢
      by_cases h1 : s.cur_tok = '\x7b'
      · simp only [if_pos h1] at h ⊢
        exact ihO s h
      · simp only [if_neg h1] at h ⊢
        by_cases h2 : s.cur_tok = '['
        · simp only [if_pos h2] at h ⊢
          exact ihArr s h
        · simp only [if_neg h2] at h ⊢
    · -- parse_object
      intro s h
      simp only [JSON.parse_object] at h ⊢
      split
      · rfl
      · rename_i hcond
        rw [if_neg hcond] at h
        exact ihOL [] _ h
    · -- objLoop
      intro mp s h
      simp only [JSON.objLoop] at h ⊢
      have hA : JSON.parse_any F f (JSON.expect ':' (JSON.parse_string s).2) ≠ .fuelOut := by
        intro hEq
        apply h
        rw [hEq]
      rw [ihA _ hA]
      cases hres : JSON.parse_any F f (JSON.expect ':' (JSON.parse_string s).2) with
      | ok p =>
        obtain ⟨v0, s3⟩ := p
        rw [hres] at h
        simp only at h ⊢
        split
        · rename_i hc
          rw [if_pos hc] at h
          exact ihOL _ _ h
        · rfl
      | panic m => rfl
      | fuelOut => exact absurd hres hA
    · -- parse_array
      intro s h
      simp only [JSON.parse_array] at h ⊢
      split
      · rfl
      · rename_i hcond
        rw [if_neg hcond] at h
        exact ihAL [] _ h
    · -- arrLoop
      intro ar s h
      simp only [JSON.arrLoop] at h ⊢
      have hA : JSON.parse_any F f s ≠ .fuelOut := by
        intro hEq
        apply h
        rw [hEq]
      rw [ihA _ hA]
      cases hres : JSON.parse_any F f s with
      | ok p =>
        obtain ⟨v0, s3⟩ := p
        rw [hres] at h
        simp only at h ⊢
        split
        · rename_i hc
          rw [if_pos hc] at h
          exact ihAL _ _ h
        · rfl
      | panic m => rfl
      | fuelOut => exact absurd hres hA

theorem parse_any_mono_ge (F : FloatMod) (s : JSON) (f f' : Nat) (hle : f ≤ f')
    (h : JSON.parse_any F f s ≠ .fuelOut) :
    JSON.parse_any F f' s = JSON.parse_any F f s := by
  induction f' , hle using Nat.le_induction with
  | base => rfl
  | succ m hm ihm =>
    have hne : JSON.parse_any F m s ≠ .fuelOut := by
      rw [ihm]
      exact h
    rw [(mono_all F m).1 s hne, ihm]

theorem parse_eq_parseWith (F : FloatMod) (text : List Char) :
    parse F text = parseWith F (parseFuel text) text := rfl

/-- Claim C9: parsing terminates on every finite input.  For any fuel at
least `parseFuel text` the fueled descent gives the same outcome as
`parse`, and that outcome is a definite result (a value or a panic), never
fuel exhaustion — i.e. the unbounded Rust recursion reaches a result on
every finite input. -/
theorem C9_parse_terminates (F : FloatMod) (text : List Char) (f : Nat)
    (hf : parseFuel text ≤ f) :
    parseWith F f text = parse F text ∧ parse F text ≠ PResult.fuelOut := by
  cases text with
  | nil => exact ⟨rfl, by simp [parse, JSON.new]⟩
  | cons c cs =>
    have hsuff : JSON.parse_any F (parseFuel (c :: cs)) ⟨c, cs⟩ ≠ .fuelOut := by
      apply parse_any_fuel_sufficient
      simp only [parseFuel, List.length_cons]
      omega
    have hmono := parse_any_mono_ge F ⟨c, cs⟩ (parseFuel (c :: cs)) f hf hsuff
    constructor
    · simp only [parseWith, parse, JSON.new, hmono]
    · simp only [parse, JSON.new]
      cases hres : JSON.parse_any F (parseFuel (c :: cs)) ⟨c, cs⟩ with
      | ok p => obtain ⟨v, s'⟩ := p; simp
      | panic m => simp
      | fuelOut => exact absurd hres hsuff

/-- Witness for `C9_parse_terminates` on the input `1` with ample fuel. -/
theorem C9_parse_terminates_witness :
    parseWith intModel 20 "1".data = parse intModel "1".data ∧
      parse intModel "1".data ≠ PResult.fuelOut :=
  C9_parse_terminates intModel "1".data 20 (by decide)

/-! ### Sorted keys in every parsed Object (claim C3, amended) -/

theorem charLtb_total (a b : Char) : charLtb a b = true ∨ a = b ∨ charLtb b a = true := by
  simp only [charLtb, decide_eq_true_eq]
  rcases Nat.lt_trichotomy a.toNat b.toNat with h | h | h
  · exact Or.inl h
  · exact Or.inr (Or.inl (Char.eq_of_val_eq (UInt32.ext h)))
  · exact Or.inr (Or.inr h)

theorem strLtb_total (a b : List Char) : strLtb a b = true ∨ a = b ∨ strLtb b a = true := by
  induction a generalizing b with
  | nil =>
    cases b with
    | nil => exact Or.inr (Or.inl rfl)
    | cons y ys => exact Or.inl (by simp [strLtb])
  | cons x xs ih =>
    cases b with
    | nil => exact Or.inr (Or.inr (by simp [strLtb]))
    | cons y ys =>
      rcases charLtb_total x y with h | h | h
      · exact Or.inl (by simp [strLtb, h])
      · subst h
        have hxx : charLtb x x = false := by simp [charLtb]
        rcases ih ys with h2 | h2 | h2
        · exact Or.inl (by simp [strLtb, hxx, h2])
        · exact Or.inr (Or.inl (by rw [h2]))
        · exact Or.inr (Or.inr (by simp [strLtb, hxx, h2]))
      · by_cases hxy : charLtb x y = true
        · exact Or.inl (by simp [strLtb, hxy])
        · exact Or.inr (Or.inr (by simp [strLtb, h, hxy]))

theorem strLtb_of_not (k kp : List Char) (h1 : ¬strLtb k kp = true) (h2 : ¬k = kp) :
    strLtb kp k = true := by
  rcases strLtb_total k kp with h | h | h
  · exact absurd h h1
  · exact absurd h h2
  · exact h

/-- `btInsert` never empties the list, and its head key is the inserted key
or the previous head key. -/
theorem btInsert_cons {ν : Type} (k : List Char) (v : JSONValue ν)
    (e0 : List Char × JSONValue ν) (r0 : List (List Char × JSONValue ν)) :
    ∃ e r, btInsert k v (e0 :: r0) = e :: r ∧ (e.1 = k ∨ e.1 = e0.1) := by
  obtain ⟨k0, v0⟩ := e0
  simp only [btInsert]
  split
  · exact ⟨(k, v), (k0, v0) :: r0, rfl, Or.inl rfl⟩
  · split
    · exact ⟨(k, v), r0, rfl, Or.inl rfl⟩
    · exact ⟨(k0, v0), btInsert k v r0, rfl, Or.inr rfl⟩

/-- `BTreeMap::insert` preserves strictly sorted keys. -/
theorem keysSortedb_btInsert {ν : Type} (k : List Char) (v : JSONValue ν) :
    ∀ m : List (List Char × JSONValue ν), keysSortedb m = true →
      keysSortedb (btInsert k v m) = true := by
  intro m
  induction m with
  | nil => intro hs; simp [btInsert, keysSortedb]
  | cons e rest ih =>
    obtain ⟨kp, vp⟩ := e
    intro hs
    have hrest : keysSortedb rest = true := by
      cases rest with
      | nil => simp [keysSortedb]
      | cons e2 r2 =>
        simp only [keysSortedb, Bool.and_eq_true] at hs
        exact hs.2
    simp only [btInsert]
    split
    · rename_i hlt
      cases rest with
      | nil => simp [keysSortedb, hlt]
      | cons e2 r2 =>
        simp only [keysSortedb, Bool.and_eq_true] at hs ⊢
        exact ⟨hlt, hs⟩
    · split
      · rename_i hnlt heq
        subst heq
        cases rest with
        | nil => simp [keysSortedb]
        | cons e2 r2 =>
          simp only [keysSortedb, Bool.and_eq_true] at hs ⊢
          exact hs
      · rename_i hnlt hne
        have hgt : strLtb kp k = true := strLtb_of_not k kp hnlt hne
        have hins := ih hrest
        cases rest with
        | nil =>
          simp only [btInsert, keysSortedb, Bool.and_eq_true]
          exact ⟨hgt, trivial⟩
        | cons e2 r2 =>
          obtain ⟨e3, r3, heq3, hhead⟩ := btInsert_cons k v e2 r2
          rw [heq3]
          rw [heq3] at hins
          have hlt3 : strLtb kp e3.1 = true := by
            rcases hhead with h | h
            · rw [h]
              exact hgt
            · rw [h]
              simp only [keysSortedb, Bool.and_eq_true] at hs
              exact hs.1
          simp only [keysSortedb] at hins ⊢
          cases r3 with
          | nil => simp [keysSortedb, hlt3]
          | cons e5 r5 =>
            simp only [keysSortedb, Bool.and_eq_true] at hins ⊢
            exact ⟨hlt3, hins⟩

theorem objsSortedMem_btInsert {ν : Type} (k : List Char) (v : JSONValue ν)
    (hv : objsSorted v) :
    ∀ m : List (List Char × JSONValue ν), objsSortedMem m →
      objsSortedMem (btInsert k v m) := by
  intro m
  induction m with
  | nil => intro hm; exact ⟨hv, trivial⟩
  | cons e rest ih =>
    intro hm
    obtain ⟨he, hrest⟩ := hm
    simp only [btInsert]
    split
    · exact ⟨hv, he, hrest⟩
    · split
      · exact ⟨hv, hrest⟩
      · exact ⟨he, ih hrest⟩

theorem objsSortedList_append {ν : Type} (ar : List (JSONValue ν)) (v : JSONValue ν)
    (har : objsSortedList ar) (hv : objsSorted v) : objsSortedList (ar ++ [v]) := by
  induction ar with
  | nil => exact ⟨hv, trivial⟩
  | cons x xs ih =>
    obtain ⟨hx, hxs⟩ := har
    exact ⟨hx, ih hxs⟩

theorem parse_literal_sorted (F : FloatMod) (s : JSON) (v : JSONValue F.Num) (s' : JSON)
    (h : JSON.parse_literal F s = .ok (v, s')) : objsSorted v := by
  simp only [JSON.parse_literal, literalStep] at h
  split at h
  · split at h
    · simp only [PResult.ok.injEq, Prod.mk.injEq] at h
      rw [← h.1]
      trivial
    · cases h
  · split at h
    · split at h
      · simp only [PResult.ok.injEq, Prod.mk.injEq] at h
        rw [← h.1]
        trivial
      · cases h
    · split at h
      · split at h
        · simp only [PResult.ok.injEq, Prod.mk.injEq] at h
          rw [← h.1]
          trivial
        · cases h
      · cases h

/-- Every value built by the parser has sorted keys in all its Object
nodes (fuel induction over the mutual family). -/
theorem sorted_inv (F : FloatMod) : ∀ f : Nat,
    (∀ s v s', JSON.parse_any F f s = .ok (v, s') → objsSorted v) ∧
    (∀ s v s', JSON.parse_object F f s = .ok (v, s') → objsSorted v) ∧
    (∀ mp s v s', JSON.objLoop F f mp s = .ok (v, s') →
      keysSortedb mp = true → objsSortedMem mp → objsSorted v) ∧
    (∀ s v s', JSON.parse_array F f s = .ok (v, s') → objsSorted v) ∧
    (∀ ar s v s', JSON.arrLoop F f ar s = .ok (v, s') →
      objsSortedList ar → objsSorted v) := by
  intro f
  induction f with
  | zero =>
    refine ⟨?_, ?_, ?_, ?_, ?_⟩
    · intro s v s2 h
      simp [JSON.parse_any] at h
    · intro s v s2 h
      simp [JSON.parse_object] at h
    · intro mp s v s2 h h1 h2
      simp [JSON.objLoop] at h
    · intro s v s2 h
      simp [JSON.parse_array] at h
    · intro ar s v s2 h h1
      simp [JSON.arrLoop] at h
  | succ f ih =>
    obtain ⟨ihA, ihO, ihOL, ihArr, ihAL⟩ := ih
    refine ⟨?_, ?_, ?_, ?_, ?_⟩
    · -- parse_any
      intro s v s2 h
      simp only [JSON.parse_any] at h
      split at h
      · exact ihO _ _ _ h
      · split at h
        · exact ihArr _ _ _ h
        · split at h
          · exact parse_literal_sorted F _ _ _ h
          · split at h
            · simp only [PResult.ok.injEq, Prod.mk.injEq] at h
              rw [← h.1]
              trivial
            · split at h
              · simp only [JSON.parse_number] at h
                split at h
                · simp only [PResult.ok.injEq, Prod.mk.injEq] at h
                  rw [← h.1]
                  trivial
                · cases h
              · cases h
    · -- parse_object
      intro s v s2 h
      simp only [JSON.parse_object] at h
      split at h
      · simp only [PResult.ok.injEq, Prod.mk.injEq] at h
        rw [← h.1]
        exact ⟨rfl, trivial⟩
      · exact ihOL [] _ _ _ h rfl trivial
    · -- objLoop
      intro mp s v s2 h h1 h2
      simp only [JSON.objLoop] at h
      cases hres : JSON.parse_any F f (JSON.expect ':' (JSON.parse_string s).2) with
      | ok p =>
        obtain ⟨v0, s3⟩ := p
        rw [hres] at h
        simp only at h
        have hv0 : objsSorted v0 := ihA _ _ _ hres
        split at h
        · exact ihOL _ _ _ _ h
            (keysSortedb_btInsert _ _ _ h1)
            (objsSortedMem_btInsert _ _ hv0 _ h2)
        · split at h
          · simp only [PResult.ok.injEq, Prod.mk.injEq] at h
            rw [← h.1]
            exact ⟨keysSortedb_btInsert _ _ _ h1,
              objsSortedMem_btInsert _ _ hv0 _ h2⟩
          · cases h
      | panic m =>
        rw [hres] at h
        simp at h
      | fuelOut =>
        rw [hres] at h
        simp at h
    · -- parse_array
      intro s v s2 h
      simp only [JSON.parse_array] at h
      split at h
      · simp only [PResult.ok.injEq, Prod.mk.injEq] at h
        rw [← h.1]
        trivial
      · exact ihAL [] _ _ _ h trivial
    · -- arrLoop
      intro ar s v s2 h h1
      simp only [JSON.arrLoop] at h
      cases hres : JSON.parse_any F f s with
      | ok p =>
        obtain ⟨v0, s3⟩ := p
        rw [hres] at h
        simp only at h
        have hv0 : objsSorted v0 := ihA _ _ _ hres
        split at h
        · exact ihAL _ _ _ _ h (objsSortedList_append ar v0 h1 hv0)
        · split at h
          · simp only [PResult.ok.injEq, Prod.mk.injEq] at h
            rw [← h.1]
            exact objsSortedList_append ar v0 h1 hv0
          · cases h
      | panic m =>
        rw [hres] at h
        simp at h
      | fuelOut =>
        rw [hres] at h
        simp at h

/-- Claim C3 (amended): every Object node of a successfully parsed value
has strictly sorted keys in the Rust `String` order — iteration (and hence
serialization) visits keys in ascending lexicographic order, not in
insertion order. -/
theorem C3_parse_objects_sorted (F : FloatMod) (text : List Char)
    (v : JSONValue F.Num) (h : parse F text = .ok v) : objsSorted v := by
  cases text with
  | nil => simp [parse, JSON.new] at h
  | cons c cs =>
    simp only [parse, JSON.new] at h
    cases hres : JSON.parse_any F (parseFuel (c :: cs)) ⟨c, cs⟩ with
    | ok p =>
      obtain ⟨v0, s3⟩ := p
      rw [hres] at h
      simp only [PResult.ok.injEq] at h
      rw [← h]
      exact (sorted_inv F _).1 _ _ _ hres
    | panic m =>
      rw [hres] at h
      cases h
    | fuelOut =>
      rw [hres] at h
      cases h

/-- Witness for `C3_parse_objects_sorted` on `{"b":1,"a":2}`. -/
theorem C3_parse_objects_sorted_witness :
    objsSorted (JSONValue.Object
      [("a".data, JSONValue.Number (2 : Int)), ("b".data, JSONValue.Number (1 : Int))]) :=
  C3_parse_objects_sorted intModel "\x7b\"b\":1,\"a\":2\x7d".data _ rfl

/-! ### Round trip: glue lemmas -/

theorem nextTokChars_ws_append (w l : List Char) (hw : ∀ c ∈ w, isAsciiWs c = true) :
    nextTokChars (w ++ l) = nextTokChars l := by
  induction w with
  | nil => rfl
  | cons x xs ih =>
    have hx : isAsciiWs x = true := hw x (by simp)
    simp only [List.cons_append, nextTokChars, hx, if_true]
    exact ih (fun c hc => hw c (by simp [hc]))

theorem nextTokChars_cons_sig (c : Char) (l : List Char) (hc : isAsciiWs c = false) :
    nextTokChars (c :: l) = (c, l) := by
  simp [nextTokChars, hc]

theorem indstr_ws (d : Nat) : ∀ c ∈ indstr d, isAsciiWs c = true := by
  intro c hc
  rw [indstr_eq_replicate] at hc
  rw [List.eq_of_mem_replicate hc]
  rfl

theorem indstrend_ws (d : Nat) : ∀ c ∈ indstrend d, isAsciiWs c = true := by
  intro c hc
  rw [indstrend_eq_replicate] at hc
  rw [List.eq_of_mem_replicate hc]
  rfl

theorem scan_string (k R : List Char) (hk : '"' ∉ k) :
    (k ++ '"' :: R).takeWhile (fun c => c != '"') = k ∧
      (k ++ '"' :: R).dropWhile (fun c => c != '"') = '"' :: R := by
  induction k with
  | nil => simp [List.takeWhile, List.dropWhile]
  | cons x xs ih =>
    have hx : x ≠ '"' := fun he => hk (by simp [he])
    have ihs := ih (fun hm => hk (by simp [hm]))
    have hdx : (x != '"') = true := by simpa using hx
    simp only [List.cons_append, List.takeWhile, List.dropWhile, hdx, List.append_eq]
    exact ⟨by rw [ihs.1], ihs.2⟩

/-- `parse_string` on a cursor whose unread input starts with a quote-free
run, the closing quote, and a remainder `R`: it returns the run and the
cursor advanced into `R`. -/
theorem parse_string_run (c0 : Char) (k R : List Char) (hk : '"' ∉ k) :
    JSON.parse_string ⟨c0, k ++ '"' :: R⟩ =
      (k, ⟨(nextTokChars R).1, (nextTokChars R).2⟩) := by
  obtain ⟨h1, h2⟩ := scan_string k R hk
  simp only [JSON.parse_string, JSON.next_tok, h1, h2]
  simp

theorem not_ws_of_digit (c : Char) (h : (isAsciiDigit c || c = '.') = true) :
    isAsciiWs c = false := by
  by_contra hws
  simp only [Bool.not_eq_false] at hws
  simp only [isAsciiWs, Bool.or_eq_true, beq_iff_eq] at hws
  rcases hws with (((rfl | rfl) | rfl) | rfl) | rfl <;> simp [isAsciiDigit] at h

theorem not_ws_of_numHead (c : Char) (h : (isAsciiDigit c || c = '-') = true) :
    isAsciiWs c = false := by
  by_contra hws
  simp only [Bool.not_eq_false] at hws
  simp only [isAsciiWs, Bool.or_eq_true, beq_iff_eq] at hws
  rcases hws with (((rfl | rfl) | rfl) | rfl) | rfl <;> simp [isAsciiDigit] at h

/-- The number loop consumes an all-digit-or-dot run whole and stops at the
first significant character of the trailing text. -/
theorem numAcc_run : ∀ (cs : List Char), (∀ x ∈ cs, (isAsciiDigit x || x = '.') = true) →
    ∀ (acc t : List Char), numStop t →
    numAcc acc (cs ++ t) = (acc ++ cs, ⟨(nextTokChars t).1, (nextTokChars t).2⟩) := by
  intro cs
  induction cs with
  | nil =>
    intro _ acc t hstop
    rw [List.nil_append, numAcc_eq_nextTok, if_neg (by rw [hstop]; simp)]
    simp
  | cons x xs ih =>
    intro hall acc t hstop
    have hx : (isAsciiDigit x || x = '.') = true := hall x (by simp)
    have hxw : isAsciiWs x = false := not_ws_of_digit x hx
    simp only [List.cons_append, numAcc, hxw, Bool.false_eq_true, if_false, hx, if_true,
      List.append_eq]
    rw [ih (fun c hc => hall c (by simp [hc])) (acc ++ [x]) t hstop]
    simp

/-! ### Round trip: order lemmas for the BTreeMap representation -/

theorem charLtb_irrefl (a : Char) : charLtb a a = false := by
  simp [charLtb]

theorem charLtb_trans (a b c : Char) (h1 : charLtb a b = true) (h2 : charLtb b c = true) :
    charLtb a c = true := by
  simp only [charLtb, decide_eq_true_eq] at h1 h2 ⊢
  omega

theorem strLtb_cons_iff (x y : Char) (xs ys : List Char) :
    strLtb (x :: xs) (y :: ys) = true ↔
      (charLtb x y = true ∨ (x = y ∧ strLtb xs ys = true)) := by
  by_cases h1 : charLtb x y = true
  · simp [strLtb, h1]
  · by_cases h2 : charLtb y x = true
    · have hne : x ≠ y := by
        intro he
        subst he
        exact absurd h2 (by simp [charLtb])
      simp [strLtb, h1, h2, hne]
    · have heq : x = y := by
        rcases charLtb_total x y with h | h | h
        · exact absurd h h1
        · exact h
        · exact absurd h h2
      subst heq
      simp [strLtb, h1, h2]

theorem strLtb_irrefl (a : List Char) : strLtb a a = false := by
  induction a with
  | nil => rfl
  | cons x xs ih =>
    by_contra hcon
    simp only [Bool.not_eq_false] at hcon
    rw [strLtb_cons_iff] at hcon
    rcases hcon with h | ⟨-, h⟩
    · rw [charLtb_irrefl] at h
      cases h
    · rw [ih] at h
      cases h

theorem strLtb_trans (a : List Char) : ∀ (b c : List Char),
    strLtb a b = true → strLtb b c = true → strLtb a c = true := by
  induction a with
  | nil =>
    intro b c h1 h2
    cases b with
    | nil => cases h1
    | cons y ys =>
      cases c with
      | nil => cases h2
      | cons z zs => simp [strLtb]
  | cons x xs ih =>
    intro b c h1 h2
    cases b with
    | nil => cases h1
    | cons y ys =>
      cases c with
      | nil => cases h2
      | cons z zs =>
        rw [strLtb_cons_iff] at h1 h2 ⊢
        rcases h1 with h1 | ⟨rfl, h1⟩
        · rcases h2 with h2 | ⟨rfl, h2⟩
          · exact Or.inl (charLtb_trans _ _ _ h1 h2)
          · exact Or.inl h1
        · rcases h2 with h2 | ⟨rfl, h2⟩
          · exact Or.inl h2
          · exact Or.inr ⟨rfl, ih ys zs h1 h2⟩

/-- Inserting a key greater than everything in the map appends it. -/
theorem btInsert_append {ν : Type} (k : List Char) (v : JSONValue ν) :
    ∀ acc : List (List Char × JSONValue ν), (∀ e ∈ acc, strLtb e.1 k = true) →
      btInsert k v acc = acc ++ [(k, v)] := by
  intro acc
  induction acc with
  | nil => intro _; rfl
  | cons e rest ih =>
    intro hlt
    obtain ⟨ke, ve⟩ := e
    have hek : strLtb ke k = true := hlt (ke, ve) (by simp)
    have h1 : strLtb k ke = false := by
      by_contra hcon
      simp only [Bool.not_eq_false] at hcon
      have := strLtb_trans _ _ _ hcon hek
      rw [strLtb_irrefl] at this
      cases this
    have h2 : k ≠ ke := by
      intro he
      subst he
      rw [strLtb_irrefl] at hek
      cases hek
    simp only [btInsert, h1, Bool.false_eq_true, if_false, h2, if_neg h2]
    rw [ih (fun e he => hlt e (by simp [he]))]
    rfl

/-- In a sorted chain the first key is below every later key. -/
theorem keysSortedb_head_lt {ν : Type} (k : List Char) (v : JSONValue ν) :
    ∀ ms : List (List Char × JSONValue ν), keysSortedb ((k, v) :: ms) = true →
      ∀ e ∈ ms, strLtb k e.1 = true := by
  intro ms
  induction ms generalizing k v with
  | nil => intro _ e he; cases he
  | cons e2 rest ih =>
    intro hs e he
    obtain ⟨k2, v2⟩ := e2
    simp only [keysSortedb, Bool.and_eq_true] at hs
    rcases List.mem_cons.mp he with rfl | he2
    · exact hs.1
    · exact strLtb_trans _ _ _ hs.1 (ih k2 v2 hs.2 e he2)

/-! ### Round trip: the rendered text seen from inside the loops -/

theorem reprObjItems_objRest (F : FloatMod) (d : Nat) (t : List Char) :
    ∀ (ms : List (List Char × JSONValue F.Num)) (k : List Char) (v : JSONValue F.Num),
      reprObjItems F ((k, v) :: ms) d ++ ('\n' :: (indstrend d ++ '\x7d' :: t)) =
        indstr d ++ '"' :: (k ++ '"' :: ':' :: ' ' ::
          (JSONValue.repr F v (d + 1) ++ objRest F ms d t)) := by
  intro ms
  induction ms with
  | nil =>
    intro k v
    simp [reprObjItems, objRest, List.append_assoc]
  | cons e rest ih =>
    intro k v
    obtain ⟨k2, v2⟩ := e
    simp only [reprObjItems, objRest, List.append_assoc, List.cons_append]
    rw [← ih k2 v2]

theorem reprArrItems_arrRest (F : FloatMod) (d : Nat) (t : List Char) :
    ∀ (xs : List (JSONValue F.Num)) (x : JSONValue F.Num),
      reprArrItems F (x :: xs) d ++ ('\n' :: (indstrend d ++ ']' :: t)) =
        indstr d ++ (JSONValue.repr F x (d + 1) ++ arrRest F xs d t) := by
  intro xs
  induction xs with
  | nil =>
    intro x
    simp [reprArrItems, arrRest, List.append_assoc]
  | cons y rest ih =>
    intro x
    simp only [reprArrItems, arrRest, List.append_assoc, List.cons_append]
    rw [← ih y]

/-- The first character of any rendered value: never whitespace, never a
closing bracket. -/
theorem repr_shape (F : FloatMod) (v : JSONValue F.Num) (d : Nat) (hwf : WF F v) :
    ∃ c cs, JSONValue.repr F v d = c :: cs ∧ isAsciiWs c = false ∧
      c ≠ ']' ∧ c ≠ '\x7d' := by
  cases v with
  | Null => exact ⟨'n', ['u', 'l', 'l'], rfl, by decide, by decide, by decide⟩
  | Bool b =>
    cases b
    · exact ⟨'f', ['a', 'l', 's', 'e'], rfl, by decide, by decide, by decide⟩
    · exact ⟨'t', ['r', 'u', 'e'], rfl, by decide, by decide, by decide⟩
  | String s => exact ⟨'"', s ++ ['"'], rfl, by decide, by decide, by decide⟩
  | Number n =>
    have hwf' : numFmtOk F n := hwf
    obtain ⟨hne, hhead, -, -⟩ := hwf'
    obtain ⟨c, cs, he⟩ := List.exists_cons_of_ne_nil hne
    rw [he] at hhead
    simp only [List.headI] at hhead
    refine ⟨c, cs, he, not_ws_of_numHead c hhead, ?_, ?_⟩
    · intro hc
      subst hc
      simp [isAsciiDigit] at hhead
    · intro hc
      subst hc
      simp [isAsciiDigit] at hhead
  | Array xs =>
    cases xs with
    | nil => exact ⟨'[', [']'], rfl, by decide, by decide, by decide⟩
    | cons x rest =>
      exact ⟨'[', '\n' :: (reprArrItems F (x :: rest) d ++
        '\n' :: (indstrend d ++ [']'])), rfl, by decide, by decide, by decide⟩
  | Object m =>
    cases m with
    | nil => exact ⟨'\x7b', ['\x7d'], rfl, by decide, by decide, by decide⟩
    | cons e rest =>
      exact ⟨'\x7b', '\n' :: (reprObjItems F (e :: rest) d ++
        '\n' :: (indstrend d ++ ['\x7d'])), rfl, by decide, by decide, by decide⟩

/-- Skipping whitespace before a rendered value stops exactly at its first
character: the cursor becomes `feed (repr v d) l`. -/
theorem nextTokChars_repr_append (F : FloatMod) (v : JSONValue F.Num) (d : Nat)
    (l : List Char) (hwf : WF F v) :
    nextTokChars (JSONValue.repr F v d ++ l) =
      ((feed (JSONValue.repr F v d) l).cur_tok, (feed (JSONValue.repr F v d) l).iter) := by
  obtain ⟨c, cs, he, hws, -, -⟩ := repr_shape F v d hwf
  rw [he]
  simp [feed, nextTokChars_cons_sig c _ hws]

/-- Establish a `next_tok` step from the underlying character scan. -/
theorem JSON.next_tok_eq (s t : JSON) (h : nextTokChars s.iter = (t.cur_tok, t.iter)) :
    s.next_tok = t := by
  simp only [JSON.next_tok, h]

/-! ### Round trip: the main induction -/

mutual
/-- Parsing a rendered value consumes exactly its text (plus the leading
whitespace of the trailing text) and rebuilds the value. -/
theorem rt_val (F : FloatMod) : ∀ (v : JSONValue F.Num) (d : Nat) (t : List Char) (fl : Nat),
    WF F v → numStop t → (JSONValue.repr F v d).length < fl →
    JSON.parse_any F fl (feed (JSONValue.repr F v d) t) =
      .ok (v, ⟨(nextTokChars t).1, (nextTokChars t).2⟩)
  | .Null, d, t, fl, _, _, hf => by
    obtain ⟨g, rfl⟩ : ∃ g, fl = g + 1 := ⟨fl - 1, by omega⟩
    rfl
  | .Bool true, d, t, fl, _, _, hf => by
    obtain ⟨g, rfl⟩ : ∃ g, fl = g + 1 := ⟨fl - 1, by omega⟩
    rfl
  | .Bool false, d, t, fl, _, _, hf => by
    obtain ⟨g, rfl⟩ : ∃ g, fl = g + 1 := ⟨fl - 1, by omega⟩
    rfl
  | .String s, d, t, fl, hwf, _, hf => by
    obtain ⟨g, rfl⟩ : ∃ g, fl = g + 1 := ⟨fl - 1, by omega⟩
    have hq : '"' ∉ s := hwf
    have hstep : JSON.parse_any F (g + 1) (feed (JSONValue.repr F (.String s) d) t) =
        .ok (JSONValue.String (JSON.parse_string ⟨'"', (s ++ ['"']) ++ t⟩).1,
          (JSON.parse_string ⟨'"', (s ++ ['"']) ++ t⟩).2) := rfl
    rw [hstep, show ((s ++ ['"']) ++ t : List Char) = s ++ '"' :: t from by simp,
      parse_string_run '"' s t hq]
  | .Number n, d, t, fl, hwf, hstop, hf => by
    obtain ⟨g, rfl⟩ : ∃ g, fl = g + 1 := ⟨fl - 1, by omega⟩
    obtain ⟨hne, hhead, htail, hround⟩ := (hwf : numFmtOk F n)
    obtain ⟨c, cs, he⟩ := List.exists_cons_of_ne_nil hne
    rw [he] at hhead htail
    simp only [List.headI] at hhead
    simp only [List.tail] at htail
    have hrepr : JSONValue.repr F (.Number n) d = c :: cs := he
    rw [hrepr]
    simp only [feed, JSON.parse_any]
    have h1 : ¬(c = '\x7b') := by
      intro hcc
      subst hcc
      simp [isAsciiDigit] at hhead
    have h2 : ¬(c = '[') := by
      intro hcc
      subst hcc
      simp [isAsciiDigit] at hhead
    have h3 : ¬((decide (c = 't') || decide (c = 'f') || decide (c = 'n')) = true) := by
      simp only [Bool.or_eq_true, decide_eq_true_eq]
      rintro ((rfl | rfl) | rfl) <;> simp [isAsciiDigit] at hhead
    have h4 : ¬(c = '"') := by
      intro hcc
      subst hcc
      simp [isAsciiDigit] at hhead
    rw [if_neg h1, if_neg h2, if_neg h3, if_neg h4, if_pos (by simpa using hhead)]
    simp only [JSON.parse_number]
    rw [numAcc_run cs htail [c] t hstop]
    rw [show ([c] ++ cs : List Char) = c :: cs from rfl, ← he, hround]
  | .Array [], d, t, fl, _, _, hf => by
    obtain ⟨g, rfl⟩ : ∃ g, fl = g + 2 := ⟨fl - 2, by
      have : (JSONValue.repr F (.Array []) d).length = 2 := rfl
      omega⟩
    rfl
  | .Object [], d, t, fl, _, _, hf => by
    obtain ⟨g, rfl⟩ : ∃ g, fl = g + 2 := ⟨fl - 2, by
      have : (JSONValue.repr F (.Object []) d).length = 2 := rfl
      omega⟩
    rfl
  | .Array (x :: xs), d, t, fl, hwf, hstop, hf => by
    obtain ⟨hwfx, hwfxs⟩ : WF F x ∧ WFList F xs := by
      have h := hwf
      simp only [WF, WFList] at h
      exact h
    have hlen : (JSONValue.repr F (.Array (x :: xs)) d).length =
        (reprArrItems F (x :: xs) d).length + 4 + 2 * d := by
      simp [JSONValue.repr, indstrend_eq_replicate, List.length_append]
      omega
    obtain ⟨g, rfl⟩ : ∃ g, fl = g + 2 := ⟨fl - 2, by omega⟩
    have hrepr : JSONValue.repr F (.Array (x :: xs)) d =
        '[' :: '\n' :: (reprArrItems F (x :: xs) d ++
          '\n' :: (indstrend d ++ [']'])) := rfl
    have hstep : JSON.parse_any F (g + 2) (feed (JSONValue.repr F (.Array (x :: xs)) d) t) =
        JSON.parse_array F (g + 1) (feed (JSONValue.repr F (.Array (x :: xs)) d) t) := by
      rw [hrepr]
      rfl
    rw [hstep, hrepr]
    simp only [feed]
    have hiter : (('\n' :: (reprArrItems F (x :: xs) d ++
        '\n' :: (indstrend d ++ [']']))) ++ t) =
        '\n' :: (indstr d ++ (JSONValue.repr F x (d + 1) ++ arrRest F xs d t)) := by
      rw [← reprArrItems_arrRest F d t xs x]
      simp [List.append_assoc]
    rw [hiter]
    obtain ⟨c1, cs1, he1, hws1, hnb1, -⟩ := repr_shape F x (d + 1) hwfx
    have hexp : JSON.expect '[' ⟨'[',
        '\n' :: (indstr d ++ (JSONValue.repr F x (d + 1) ++ arrRest F xs d t))⟩ =
        feed (JSONValue.repr F x (d + 1)) (arrRest F xs d t) := by
      simp only [JSON.expect, JSON.next_tok]
      rw [show nextTokChars ('\n' :: (indstr d ++ (JSONValue.repr F x (d + 1) ++
          arrRest F xs d t))) = nextTokChars (indstr d ++ (JSONValue.repr F x (d + 1) ++
          arrRest F xs d t)) from rfl]
      rw [nextTokChars_ws_append _ _ (indstr_ws d),
        nextTokChars_repr_append F x (d + 1) _ hwfx]
    simp only [JSON.parse_array, hexp]
    rw [if_neg (by rw [he1]; simp only [feed]; exact hnb1)]
    have harr := rt_arr F x xs [] d t (g) hwfx hwfxs hstop (by
      have hil : (reprArrItems F (x :: xs) d).length < g + 2 - 4 := by omega
      omega)
    rw [harr]
    simp
  | .Object ((k, v) :: ms), d, t, fl, hwf, hstop, hf => by
    obtain ⟨hsort, hkq, hwfv, hwfms⟩ :
        keysSortedb ((k, v) :: ms) = true ∧ '"' ∉ k ∧ WF F v ∧ WFMem F ms := by
      have h := hwf
      simp only [WF, WFMem] at h
      exact ⟨h.1, h.2.1, h.2.2.1, h.2.2.2⟩
    have hlen : (JSONValue.repr F (.Object ((k, v) :: ms)) d).length =
        (reprObjItems F ((k, v) :: ms) d).length + 4 + 2 * d := by
      simp [JSONValue.repr, indstrend_eq_replicate, List.length_append]
      omega
    obtain ⟨g, rfl⟩ : ∃ g, fl = g + 2 := ⟨fl - 2, by omega⟩
    have hrepr : JSONValue.repr F (.Object ((k, v) :: ms)) d =
        '\x7b' :: '\n' :: (reprObjItems F ((k, v) :: ms) d ++
          '\n' :: (indstrend d ++ ['\x7d'])) := rfl
    have hstep : JSON.parse_any F (g + 2) (feed (JSONValue.repr F (.Object ((k, v) :: ms)) d) t) =
        JSON.parse_object F (g + 1) (feed (JSONValue.repr F (.Object ((k, v) :: ms)) d) t) := by
      rw [hrepr]
      rfl
    rw [hstep, hrepr]
    simp only [feed]
    have hiter : (('\n' :: (reprObjItems F ((k, v) :: ms) d ++
        '\n' :: (indstrend d ++ ['\x7d']))) ++ t) =
        '\n' :: (indstr d ++ '"' :: (k ++ '"' :: ':' :: ' ' ::
          (JSONValue.repr F v (d + 1) ++ objRest F ms d t))) := by
      rw [← reprObjItems_objRest F d t ms k v]
      simp [List.append_assoc]
    rw [hiter]
    have hexp : JSON.expect '\x7b' ⟨'\x7b',
        '\n' :: (indstr d ++ '"' :: (k ++ '"' :: ':' :: ' ' ::
          (JSONValue.repr F v (d + 1) ++ objRest F ms d t)))⟩ =
        ⟨'"', k ++ '"' :: ':' :: ' ' ::
          (JSONValue.repr F v (d + 1) ++ objRest F ms d t)⟩ := by
      simp only [JSON.expect, JSON.next_tok]
      rw [show nextTokChars ('\n' :: (indstr d ++ '"' :: (k ++ '"' :: ':' :: ' ' ::
          (JSONValue.repr F v (d + 1) ++ objRest F ms d t)))) =
          nextTokChars (indstr d ++ '"' :: (k ++ '"' :: ':' :: ' ' ::
          (JSONValue.repr F v (d + 1) ++ objRest F ms d t))) from rfl]
      rw [nextTokChars_ws_append _ _ (indstr_ws d)]
      rw [nextTokChars_cons_sig '"' _ (by decide)]
    simp only [JSON.parse_object, hexp]
    rw [if_neg (by decide)]
    have hobj := rt_obj F k v ms [] d t g hkq hwfv hwfms hsort
      (by intro e he; cases he) hstop (by omega)
    rw [hobj]
    simp
termination_by v _ _ _ _ _ _ => sizeOf v

/-- The array loop: elements of a rendered array are parsed one by one and
appended, ending at the closing bracket. -/
theorem rt_arr (F : FloatMod) : ∀ (x : JSONValue F.Num) (xs : List (JSONValue F.Num))
    (acc : List (JSONValue F.Num)) (d : Nat) (t : List Char) (fl : Nat),
    WF F x → WFList F xs → numStop t →
    (reprArrItems F (x :: xs) d).length < fl →
    JSON.arrLoop F fl acc (feed (JSONValue.repr F x (d + 1)) (arrRest F xs d t)) =
      .ok (.Array (acc ++ x :: xs), ⟨(nextTokChars t).1, (nextTokChars t).2⟩)
  | x, [], acc, d, t, fl, hwfx, _, hstop, hf => by
    have hlen : (reprArrItems F [x] d).length =
        2 * (d + 1) + (JSONValue.repr F x (d + 1)).length := by
      simp [reprArrItems, indstr_eq_replicate, List.length_append]
    obtain ⟨g, rfl⟩ : ∃ g, fl = g + 1 := ⟨fl - 1, by omega⟩
    have hnt : nextTokChars (arrRest F [] d t) = (']', t) := by
      calc nextTokChars (arrRest F [] d t)
          = nextTokChars (indstrend d ++ ']' :: t) := rfl
        _ = nextTokChars (']' :: t) := nextTokChars_ws_append _ _ (indstrend_ws d)
        _ = (']', t) := nextTokChars_cons_sig ']' t (by decide)
    have hstop0 : numStop (arrRest F [] d t) := by
      simp only [numStop, hnt]
      decide
    have hval := rt_val F x (d + 1) (arrRest F [] d t) g hwfx hstop0 (by omega)
    simp only [JSON.arrLoop, hval, hnt]
    simp only [reduceIte]
    simp [JSON.next_tok]
  | x, y :: ys, acc, d, t, fl, hwfx, hwfxs, hstop, hf => by
    obtain ⟨hwfy, hwfys⟩ : WF F y ∧ WFList F ys := by
      have h := hwfxs
      simp only [WFList] at h
      exact h
    have hlen : (reprArrItems F (x :: y :: ys) d).length =
        2 * (d + 1) + (JSONValue.repr F x (d + 1)).length + 2 +
          (reprArrItems F (y :: ys) d).length := by
      simp [reprArrItems, indstr_eq_replicate, List.length_append]
      omega
    obtain ⟨g, rfl⟩ : ∃ g, fl = g + 1 := ⟨fl - 1, by omega⟩
    have hnt : nextTokChars (arrRest F (y :: ys) d t) =
        (',', '\n' :: (indstr d ++ (JSONValue.repr F y (d + 1) ++ arrRest F ys d t))) := by
      exact nextTokChars_cons_sig ',' _ (by decide)
    have hstop1 : numStop (arrRest F (y :: ys) d t) := by
      simp only [numStop, hnt]
      decide
    have hval := rt_val F x (d + 1) (arrRest F (y :: ys) d t) g hwfx hstop1 (by omega)
    simp only [JSON.arrLoop, hval, hnt]
    simp only [reduceIte]
    have hs4 : JSON.next_tok ⟨',',
        '\n' :: (indstr d ++ (JSONValue.repr F y (d + 1) ++ arrRest F ys d t))⟩ =
        feed (JSONValue.repr F y (d + 1)) (arrRest F ys d t) := by
      apply JSON.next_tok_eq
      calc nextTokChars ('\n' :: (indstr d ++ (JSONValue.repr F y (d + 1) ++
              arrRest F ys d t)))
          = nextTokChars (indstr d ++ (JSONValue.repr F y (d + 1) ++
              arrRest F ys d t)) := rfl
        _ = nextTokChars (JSONValue.repr F y (d + 1) ++ arrRest F ys d t) :=
            nextTokChars_ws_append _ _ (indstr_ws d)
        _ = _ := nextTokChars_repr_append F y (d + 1) _ hwfy
    rw [hs4]
    have hrec := rt_arr F y ys (acc ++ [x]) d t g hwfy hwfys hstop (by omega)
    rw [hrec]
    simp
termination_by x xs _ _ _ _ _ _ _ _ => sizeOf x + sizeOf xs

/-- The object loop: members of a rendered object are parsed one by one and
inserted (insertion appends, since the rendered keys ascend), ending at the
closing brace. -/
theorem rt_obj (F : FloatMod) : ∀ (k : List Char) (v : JSONValue F.Num)
    (ms : List (List Char × JSONValue F.Num))
    (acc : List (List Char × JSONValue F.Num)) (d : Nat) (t : List Char) (fl : Nat),
    ('"' ∉ k) → WF F v → WFMem F ms → keysSortedb ((k, v) :: ms) = true →
    (∀ e ∈ acc, strLtb e.1 k = true) → numStop t →
    (reprObjItems F ((k, v) :: ms) d).length < fl →
    JSON.objLoop F fl acc ⟨'"', k ++ '"' :: ':' :: ' ' ::
        (JSONValue.repr F v (d + 1) ++ objRest F ms d t)⟩ =
      .ok (.Object (acc ++ (k, v) :: ms), ⟨(nextTokChars t).1, (nextTokChars t).2⟩)
  | k, v, [], acc, d, t, fl, hkq, hwfv, _, _, hacc, hstop, hf => by
    have hlen : (reprObjItems F [(k, v)] d).length =
        2 * (d + 1) + k.length + 4 + (JSONValue.repr F v (d + 1)).length := by
      simp [reprObjItems, indstr_eq_replicate, List.length_append]
      omega
    obtain ⟨g, rfl⟩ : ∃ g, fl = g + 1 := ⟨fl - 1, by omega⟩
    have hps : JSON.parse_string ⟨'"', k ++ '"' :: ':' :: ' ' ::
        (JSONValue.repr F v (d + 1) ++ objRest F [] d t)⟩ =
        (k, ⟨':', ' ' :: (JSONValue.repr F v (d + 1) ++ objRest F [] d t)⟩) := by
      rw [parse_string_run '"' k _ hkq]
      rfl
    have hexp : JSON.expect ':' ⟨':', ' ' :: (JSONValue.repr F v (d + 1) ++
        objRest F [] d t)⟩ = feed (JSONValue.repr F v (d + 1)) (objRest F [] d t) := by
      simp only [JSON.expect]
      apply JSON.next_tok_eq
      calc nextTokChars (' ' :: (JSONValue.repr F v (d + 1) ++ objRest F [] d t))
          = nextTokChars (JSONValue.repr F v (d + 1) ++ objRest F [] d t) := rfl
        _ = _ := nextTokChars_repr_append F v (d + 1) _ hwfv
    have hnt : nextTokChars (objRest F [] d t) = ('\x7d', t) := by
      calc nextTokChars (objRest F [] d t)
          = nextTokChars (indstrend d ++ '\x7d' :: t) := rfl
        _ = nextTokChars ('\x7d' :: t) := nextTokChars_ws_append _ _ (indstrend_ws d)
        _ = ('\x7d', t) := nextTokChars_cons_sig '\x7d' t (by decide)
    have hstop0 : numStop (objRest F [] d t) := by
      simp only [numStop, hnt]
      decide
    have hval := rt_val F v (d + 1) (objRest F [] d t) g hwfv hstop0 (by omega)
    simp only [JSON.objLoop, hps, hexp, hval, hnt]
    simp only [reduceIte]
    rw [btInsert_append k v acc hacc]
    simp [JSON.next_tok]
  | k, v, (k2, v2) :: ms2, acc, d, t, fl, hkq, hwfv, hwfms, hsort, hacc, hstop, hf => by
    obtain ⟨hkq2, hwfv2, hwfms2⟩ : ('"' ∉ k2) ∧ WF F v2 ∧ WFMem F ms2 := by
      have h := hwfms
      simp only [WFMem] at h
      exact h
    have hsort2 : keysSortedb ((k2, v2) :: ms2) = true := by
      simp only [keysSortedb, Bool.and_eq_true] at hsort
      exact hsort.2
    have hk12 : strLtb k k2 = true := by
      simp only [keysSortedb, Bool.and_eq_true] at hsort
      exact hsort.1
    have hlen : (reprObjItems F ((k, v) :: (k2, v2) :: ms2) d).length =
        2 * (d + 1) + k.length + 4 + (JSONValue.repr F v (d + 1)).length + 2 +
          (reprObjItems F ((k2, v2) :: ms2) d).length := by
      simp [reprObjItems, indstr_eq_replicate, List.length_append]
      omega
    obtain ⟨g, rfl⟩ : ∃ g, fl = g + 1 := ⟨fl - 1, by omega⟩
    have hps : JSON.parse_string ⟨'"', k ++ '"' :: ':' :: ' ' ::
        (JSONValue.repr F v (d + 1) ++ objRest F ((k2, v2) :: ms2) d t)⟩ =
        (k, ⟨':', ' ' :: (JSONValue.repr F v (d + 1) ++
          objRest F ((k2, v2) :: ms2) d t)⟩) := by
      rw [parse_string_run '"' k _ hkq]
      rfl
    have hexp : JSON.expect ':' ⟨':', ' ' :: (JSONValue.repr F v (d + 1) ++
        objRest F ((k2, v2) :: ms2) d t)⟩ =
        feed (JSONValue.repr F v (d + 1)) (objRest F ((k2, v2) :: ms2) d t) := by
      simp only [JSON.expect]
      apply JSON.next_tok_eq
      calc nextTokChars (' ' :: (JSONValue.repr F v (d + 1) ++
              objRest F ((k2, v2) :: ms2) d t))
          = nextTokChars (JSONValue.repr F v (d + 1) ++
              objRest F ((k2, v2) :: ms2) d t) := rfl
        _ = _ := nextTokChars_repr_append F v (d + 1) _ hwfv
    have hnt : nextTokChars (objRest F ((k2, v2) :: ms2) d t) =
        (',', '\n' :: (indstr d ++ '"' :: (k2 ++ '"' :: ':' :: ' ' ::
          (JSONValue.repr F v2 (d + 1) ++ objRest F ms2 d t)))) := by
      exact nextTokChars_cons_sig ',' _ (by decide)
    have hstop1 : numStop (objRest F ((k2, v2) :: ms2) d t) := by
      simp only [numStop, hnt]
      decide
    have hval := rt_val F v (d + 1) (objRest F ((k2, v2) :: ms2) d t) g hwfv hstop1
      (by omega)
    simp only [JSON.objLoop, hps, hexp, hval, hnt]
    simp only [reduceIte]
    rw [btInsert_append k v acc hacc]
    have hs4 : JSON.next_tok ⟨',',
        '\n' :: (indstr d ++ '"' :: (k2 ++ '"' :: ':' :: ' ' ::
          (JSONValue.repr F v2 (d + 1) ++ objRest F ms2 d t)))⟩ =
        ⟨'"', k2 ++ '"' :: ':' :: ' ' ::
          (JSONValue.repr F v2 (d + 1) ++ objRest F ms2 d t)⟩ := by
      apply JSON.next_tok_eq
      calc nextTokChars ('\n' :: (indstr d ++ '"' :: (k2 ++ '"' :: ':' :: ' ' ::
              (JSONValue.repr F v2 (d + 1) ++ objRest F ms2 d t))))
          = nextTokChars (indstr d ++ '"' :: (k2 ++ '"' :: ':' :: ' ' ::
              (JSONValue.repr F v2 (d + 1) ++ objRest F ms2 d t))) := rfl
        _ = nextTokChars ('"' :: (k2 ++ '"' :: ':' :: ' ' ::
              (JSONValue.repr F v2 (d + 1) ++ objRest F ms2 d t))) :=
            nextTokChars_ws_append _ _ (indstr_ws d)
        _ = _ := nextTokChars_cons_sig '"' _ (by decide)
    rw [hs4]
    have hacc2 : ∀ e ∈ acc ++ [(k, v)], strLtb e.1 k2 = true := by
      intro e he
      rcases List.mem_append.mp he with h | h
      · exact strLtb_trans _ _ _ (hacc e h) hk12
      · rcases List.mem_singleton.mp h with rfl
        exact hk12
    have hrec := rt_obj F k2 v2 ms2 (acc ++ [(k, v)]) d t g hkq2 hwfv2 hwfms2 hsort2
      hacc2 hstop (by omega)
    rw [hrec]
    simp
termination_by k v ms _ _ _ _ _ _ _ _ _ _ _ => sizeOf v + sizeOf ms
end

/-- Claim C1: round trip.  For every value tree representable by the Rust
types (Objects carry the `BTreeMap` sorted-keys invariant) whose strings
and keys contain no `'"'` and whose number payloads format and re-parse
faithfully (`numFmtOk` — the property of finite, non-NaN `f64` values),
parsing the serializer's output returns a structurally equal tree. -/
theorem C1_round_trip (F : FloatMod) (v : JSONValue F.Num) (hwf : WF F v) :
    parse F (render F v) = .ok v := by
  obtain ⟨c, cs, he, hws, -, -⟩ := repr_shape F v 0 hwf
  have hrv : render F v = c :: cs := he
  rw [hrv]
  simp only [parse, JSON.new]
  have hfeed : (feed (JSONValue.repr F v 0) []) = ⟨c, cs⟩ := by
    rw [he]
    simp [feed]
  have hval := rt_val F v 0 [] (parseFuel (c :: cs)) hwf
    (by simp only [numStop]; decide)
    (by rw [he]; simp only [parseFuel, List.length_cons]; omega)
  rw [hfeed] at hval
  rw [hval]

/-- Witness for `C1_round_trip` on `{"a": 1, "b": null}`. -/
theorem C1_round_trip_witness :
    parse intModel (render intModel (JSONValue.Object
      [("a".data, JSONValue.Number (1 : Int)), ("b".data, JSONValue.Null)])) =
      PResult.ok (JSONValue.Object
        [("a".data, JSONValue.Number (1 : Int)), ("b".data, JSONValue.Null)]) :=
  C1_round_trip intModel
    (JSONValue.Object [("a".data, JSONValue.Number (1 : Int)), ("b".data, JSONValue.Null)])
    (by
      simp only [WF, WFMem, numFmtOk]
      exact ⟨by decide, ⟨by decide, ⟨by decide, by decide, by decide, by rfl⟩,
        by decide, trivial, trivial⟩⟩)
